import Mathlib

/-!
Verification of the solana-primitives library against its specification.

The development shallowly embeds the library's core: the compact-u16 (CI-16)
length codec (short_vec.rs), the wire serializer and manual deserializer for
legacy and v0 transactions (types/transaction.rs, types/message.rs), the
message compiler (builder/transaction.rs), the PDA deriver (types/pda.rs) and
the signing pipeline (crypto/mod.rs, types/transaction.rs).

Bytes are modelled as natural numbers (the Rust code stores them in u8; all
well-formedness predicates require them to be below 256 where it matters).
External cryptographic primitives (SHA-256, Ed25519 point decompression,
Ed25519 sign/verify) are parameters of the embedding: every theorem about
code that calls them is stated for an arbitrary choice of these functions,
constrained only by the hypotheses the theorem names.
-/

namespace Solana

/-! ### Compact-u16 (CI-16) codec, from short_vec.rs -/

/-- Body of the encoding loop of encode_length_to_compact_u16_bytes
(short_vec.rs, lines 213-224): emit the low 7 bits; if more bits remain,
set the high bit and shift right by 7. -/
def encodeLoop (remVal : Nat) : List Nat :=
  let elem := remVal &&& 0x7f
  let rem := remVal >>> 7
  if rem = 0 then [elem] else (elem ||| 0x80) :: encodeLoop rem
termination_by remVal
decreasing_by
  simp only [Nat.shiftRight_eq_div_pow] at *
  omega

/-- encode_length_to_compact_u16_bytes (short_vec.rs, lines 206-226): refuse
lengths above u16::MAX, then run the 7-bit emission loop. -/
def encode_length_to_compact_u16_bytes (len : Nat) : Except String (List Nat) :=
  if len > 65535 then
    .error "Length exceeds u16::MAX, cannot encode as Compact-U16"
  else
    .ok (encodeLoop len)

/-- Loop body of decode_compact_u16_len (short_vec.rs, lines 236-258).
The accumulator folds in the low 7 bits of each byte at the current shift;
a byte with the high bit clear terminates; after three bytes a set high bit
is an error.  There is no aliasing (zero-byte) check in this decoder. -/
def decodeLoop : List Nat → Nat → Nat → Except String (Nat × Nat)
  | [], _, _ => .error "Byte slice too short for compact u16 length (within loop)"
  | currentByte :: rest, len, sizeOfLenEncoding =>
    let len := len ||| ((currentByte &&& 0x7F) <<< (sizeOfLenEncoding * 7))
    let sizeOfLenEncoding := sizeOfLenEncoding + 1
    if currentByte &&& 0x80 = 0 then
      .ok (len, sizeOfLenEncoding)
    else if sizeOfLenEncoding ≥ 3 then
      .error "Compact u16 length encoding too long (max 3 bytes for u16 values)"
    else
      decodeLoop rest len sizeOfLenEncoding

/-- decode_compact_u16_len (short_vec.rs, lines 230-270): returns the decoded
length together with the number of bytes consumed. -/
def decode_compact_u16_len (bytes : List Nat) : Except String (Nat × Nat) :=
  if bytes = [] then .error "Cannot decode length from empty slice"
  else decodeLoop bytes 0 0

/-- Error cases of the strict serde ShortU16 decoder (short_vec.rs, lines 49-56). -/
inductive VisitError where
  | tooLong (len : Nat)
  | tooShort (len : Nat)
  | overflow (val : Nat)
  | alias
  | byteThreeContinues
deriving DecidableEq, Repr

/-- Status returned by visit_byte (short_vec.rs, lines 44-47). -/
inductive VisitStatus where
  | done (val : Nat)
  | more (val : Nat)
deriving DecidableEq, Repr

/-- visit_byte (short_vec.rs, lines 86-110), the strict per-byte step of the
serde ShortU16 decoder: a zero non-first byte is an alias error, the third
byte must terminate, and the accumulated value must fit in u16. -/
def visit_byte (elem val nthByte : Nat) : Except VisitError VisitStatus :=
  if elem = 0 ∧ nthByte ≠ 0 then .error .alias
  else
    let elemVal := elem &&& 0x7f
    let elemDone := elem &&& 0x80 = 0
    if nthByte ≥ 3 then .error (.tooLong (nthByte + 1))
    else if nthByte = 2 ∧ ¬elemDone then .error .byteThreeContinues
    else
      let shift := nthByte * 7
      let newVal := val ||| (elemVal <<< shift)
      if newVal > 65535 then .error (.overflow newVal)
      else if elemDone then .ok (.done newVal) else .ok (.more newVal)

/-- Loop of ShortU16Visitor::visit_seq (short_vec.rs, lines 127-137): feed up
to three bytes to visit_byte; running out of input is a TooShort error, and
falling off the end of the three-iteration loop is ByteThreeContinues.  The
first argument counts the remaining loop iterations. -/
def visitSeqLoop : Nat → List Nat → Nat → Nat → Except VisitError Nat
  | 0, _, _, _ => .error .byteThreeContinues
  | _ + 1, [], _, nthByte => .error (.tooShort (nthByte + 1))
  | fuel + 1, elem :: rest, val, nthByte =>
    match visit_byte elem val nthByte with
    | .error e => .error e
    | .ok (.done newVal) => .ok newVal
    | .ok (.more newVal) => visitSeqLoop fuel rest newVal (nthByte + 1)

/-- The strict serde ShortU16 decoder (visit_seq over a byte sequence). -/
def shortU16Decode (bytes : List Nat) : Except VisitError Nat :=
  visitSeqLoop 3 bytes 0 0

/-! #### Arithmetic characterization of the codec -/

theorem lor_shiftLeft_eq_add {a b k : Nat} (h : a < 2 ^ k) :
    a ||| (b <<< k) = a + b * 2 ^ k := by
  rw [Nat.shiftLeft_eq, Nat.lor_comm, Nat.mul_comm b (2 ^ k),
    ← Nat.mul_add_lt_is_or h, Nat.add_comm]

theorem and_127_eq_mod (n : Nat) : n &&& 0x7f = n % 128 := by
  have h := Nat.and_pow_two_sub_one_eq_mod n 7
  norm_num at h
  exact h

theorem and_128_eq_zero {n : Nat} (h : n < 128) : n &&& 0x80 = 0 := by
  apply Nat.eq_of_testBit_eq
  intro i
  rw [Nat.testBit_and, Nat.zero_testBit]
  by_cases hi : i = 7
  · subst hi
    have : n.testBit 7 = false := Nat.testBit_lt_two_pow (by omega)
    simp [this]
  · have : (0x80 : Nat).testBit i = false := by
      have := Nat.testBit_two_pow_of_ne (n := 7) (m := i) (fun hc => hi hc.symm)
      simpa using this
    simp [this]

theorem or_128_eq_add {n : Nat} (h : n < 128) : n ||| 0x80 = n + 128 := by
  have := lor_shiftLeft_eq_add (a := n) (b := 1) (k := 7) (by omega)
  simpa using this

theorem add_128_and_127 {n : Nat} (h : n < 128) : (n + 128) &&& 0x7f = n := by
  rw [and_127_eq_mod]
  omega

theorem add_128_and_128_ne {n : Nat} (h : n < 128) : (n + 128) &&& 0x80 ≠ 0 := by
  intro hc
  have hb : ((n + 128) &&& 0x80).testBit 7 = false := by
    rw [hc]; exact Nat.zero_testBit 7
  rw [Nat.testBit_and] at hb
  have h80 : (0x80 : Nat).testBit 7 = true := by
    have := Nat.testBit_two_pow_self (n := 7)
    simpa using this
  have hdiv : (n + 128) / 2 ^ 7 = 1 := by omega
  have hn : (n + 128).testBit 7 = true := by
    rw [Nat.testBit_to_div_mod, hdiv]
    decide
  rw [h80, hn] at hb
  simp at hb

theorem shiftRight7_eq_div (n : Nat) : n >>> 7 = n / 128 := by
  rw [Nat.shiftRight_eq_div_pow]

theorem encodeLoop_small {n : Nat} (h : n < 128) : encodeLoop n = [n] := by
  rw [encodeLoop]
  have hrem : n >>> 7 = 0 := by rw [shiftRight7_eq_div]; omega
  simp [hrem, and_127_eq_mod, Nat.mod_eq_of_lt h]

theorem encodeLoop_step {n : Nat} (h : 128 ≤ n) :
    encodeLoop n = (n % 128 + 128) :: encodeLoop (n / 128) := by
  rw [encodeLoop]
  have hrem : n >>> 7 = n / 128 := shiftRight7_eq_div n
  have hrem0 : ¬ n / 128 = 0 := by omega
  simp only [hrem, if_neg hrem0, and_127_eq_mod,
    or_128_eq_add (Nat.mod_lt _ (by omega))]

/-- Closed form of the encoding loop on each of the three byte-count ranges. -/
theorem encodeLoop_eq (n : Nat) (hn : n ≤ 65535) :
    encodeLoop n =
      if n < 128 then [n]
      else if n < 16384 then [n % 128 + 128, n / 128]
      else [n % 128 + 128, n / 128 % 128 + 128, n / 16384] := by
  by_cases h1 : n < 128
  · simp [h1, encodeLoop_small h1]
  · by_cases h2 : n < 16384
    · have hd : n / 128 < 128 := by omega
      rw [encodeLoop_step (by omega), encodeLoop_small hd]
      simp [h1, h2]
    · have hd1 : 128 ≤ n / 128 := by omega
      have hd2 : n / 128 / 128 < 128 := by omega
      rw [encodeLoop_step (by omega), encodeLoop_step hd1, encodeLoop_small hd2,
        Nat.div_div_eq_div_mul]
      simp [h1, h2]

/-- One decoding step on a terminating byte (high bit clear). -/
theorem decodeLoop_done {b : Nat} (hb : b &&& 0x80 = 0) (rest : List Nat)
    (len size : Nat) :
    decodeLoop (b :: rest) len size =
      .ok (len ||| ((b &&& 0x7F) <<< (size * 7)), size + 1) := by
  rw [decodeLoop, if_pos hb]

/-- One decoding step on a continuing byte (high bit set) below the limit. -/
theorem decodeLoop_cont {b : Nat} (hb : b &&& 0x80 ≠ 0) (rest : List Nat)
    (len size : Nat) (hs : size + 1 < 3) :
    decodeLoop (b :: rest) len size =
      decodeLoop rest (len ||| ((b &&& 0x7F) <<< (size * 7))) (size + 1) := by
  rw [decodeLoop, if_neg hb, if_neg (by omega)]

theorem lor_shl7 {a b : Nat} (h : a < 128) : a ||| (b <<< 7) = a + b * 128 := by
  have h' : a < 2 ^ 7 := by
    have : (2 : Nat) ^ 7 = 128 := by norm_num
    omega
  have := lor_shiftLeft_eq_add (b := b) h'
  simpa using this

theorem lor_shl14 {a b : Nat} (h : a < 16384) :
    a ||| (b <<< 14) = a + b * 16384 := by
  have h' : a < 2 ^ 14 := by
    have : (2 : Nat) ^ 14 = 16384 := by norm_num
    omega
  have := lor_shiftLeft_eq_add (b := b) h'
  simpa using this

/-- Decoding the strict encoding of n (with any continuation) succeeds,
returns n, and reports exactly the encoded byte count as consumed. -/
theorem decode_encodeLoop (n : Nat) (hn : n ≤ 65535) (rest : List Nat) :
    decode_compact_u16_len (encodeLoop n ++ rest) =
      .ok (n, (encodeLoop n).length) := by
  rw [encodeLoop_eq n hn]
  by_cases h1 : n < 128
  · simp only [if_pos h1, List.cons_append, List.nil_append, List.length_cons,
      List.length_nil]
    rw [decode_compact_u16_len, if_neg (List.cons_ne_nil _ _),
      decodeLoop_done (and_128_eq_zero h1), and_127_eq_mod,
      Nat.mod_eq_of_lt h1]
    simp
  · by_cases h2 : n < 16384
    · have hm : n % 128 < 128 := Nat.mod_lt _ (by omega)
      have hd : n / 128 < 128 := by omega
      simp only [if_neg h1, if_pos h2, List.cons_append, List.nil_append,
        List.length_cons, List.length_nil]
      rw [decode_compact_u16_len, if_neg (List.cons_ne_nil _ _),
        decodeLoop_cont (add_128_and_128_ne hm) _ _ _ (by omega),
        add_128_and_127 hm,
        decodeLoop_done (and_128_eq_zero hd), and_127_eq_mod,
        Nat.mod_eq_of_lt hd]
      simp only [Nat.zero_mul, Nat.shiftLeft_zero, Nat.zero_or,
        show (1 : Nat) * 7 = 7 from rfl]
      rw [lor_shl7 hm, show n % 128 + n / 128 * 128 = n from by omega]
    · have hm : n % 128 < 128 := Nat.mod_lt _ (by omega)
      have hm2 : n / 128 % 128 < 128 := Nat.mod_lt _ (by omega)
      have hd : n / 16384 < 128 := by omega
      simp only [if_neg h1, if_neg h2, List.cons_append, List.nil_append,
        List.length_cons, List.length_nil]
      rw [decode_compact_u16_len, if_neg (List.cons_ne_nil _ _),
        decodeLoop_cont (add_128_and_128_ne hm) _ _ _ (by omega),
        add_128_and_127 hm,
        decodeLoop_cont (add_128_and_128_ne hm2) _ _ _ (by omega),
        add_128_and_127 hm2,
        decodeLoop_done (and_128_eq_zero hd), and_127_eq_mod,
        Nat.mod_eq_of_lt hd]
      simp only [Nat.zero_mul, Nat.shiftLeft_zero, Nat.zero_or,
        show (1 : Nat) * 7 = 7 from rfl, show (2 : Nat) * 7 = 14 from rfl]
      rw [lor_shl7 hm, lor_shl14 (by omega),
        show n % 128 + n / 128 % 128 * 128 + n / 16384 * 16384 = n from by omega]

/-- Byte count of the strict encoding: 1, 2, or 3 bytes over the three ranges. -/
theorem encodeLoop_length (n : Nat) (hn : n ≤ 65535) :
    (encodeLoop n).length =
      if n ≤ 127 then 1 else if n ≤ 16383 then 2 else 3 := by
  rw [encodeLoop_eq n hn]
  by_cases h1 : n < 128
  · simp [h1, show n ≤ 127 from by omega]
  · by_cases h2 : n < 16384
    · simp [h1, h2, show ¬ n ≤ 127 from by omega, show n ≤ 16383 from by omega]
    · simp [h1, h2, show ¬ n ≤ 127 from by omega, show ¬ n ≤ 16383 from by omega]

/-- C6: For every n with 0 ≤ n ≤ 65535, encoding n with the CI-16 codec succeeds,
decoding the result returns n and consumes exactly the encoded byte count,
and the byte count is 1 for n ≤ 127, 2 for 128 ≤ n ≤ 16383, and 3 for
16384 ≤ n ≤ 65535. -/
theorem ci16_encode_decode_roundtrip (n : Nat) (hn : n ≤ 65535) :
    ∃ bs, encode_length_to_compact_u16_bytes n = .ok bs ∧
      decode_compact_u16_len bs = .ok (n, bs.length) ∧
      bs.length = (if n ≤ 127 then 1 else if n ≤ 16383 then 2 else 3) := by
  refine ⟨encodeLoop n, ?_, ?_, encodeLoop_length n hn⟩
  · rw [encode_length_to_compact_u16_bytes, if_neg (by omega)]
  · have := decode_encodeLoop n hn []
    simpa using this

/-- Witness for ci16_encode_decode_roundtrip at n = 40000. -/
theorem ci16_encode_decode_roundtrip_witness :
    ∃ bs, encode_length_to_compact_u16_bytes 40000 = .ok bs ∧
      decode_compact_u16_len bs = .ok (40000, bs.length) ∧
      bs.length = (if 40000 ≤ 127 then 1 else if 40000 ≤ 16383 then 2 else 3) := by
  have h := ci16_encode_decode_roundtrip 40000 (by norm_num)
  exact h

/-- C5: The decoder used for every wire-format length prefix,
decode_compact_u16_len, accepts the alias form [0x80, 0x00] and returns
(0, 2) instead of failing, while the strict serde ShortU16 decoder
(visit_byte) rejects the same input with an Alias error.  This refutes the
claim that the wire-format length decoder fails with AliasForm on inputs
whose non-first byte is zero. -/
theorem decode_compact_u16_len_accepts_alias :
    decode_compact_u16_len [0x80, 0x00] = .ok (0, 2) ∧
      shortU16Decode [0x80, 0x00] = .error .alias := by
  constructor <;> rfl

/-! ### Wire data model (types/message.rs, types/transaction.rs) -/

/-- A 32-byte public key (types/pubkey.rs), modelled as its byte list. -/
abbrev Pubkey := List Nat

/-- A 64-byte signature (types/signature.rs), modelled as its byte list. -/
abbrev SignatureBytes := List Nat

/-- MessageHeader (types/message.rs, lines 8-15). -/
structure MessageHeader where
  num_required_signatures : Nat
  num_readonly_signed_accounts : Nat
  num_readonly_unsigned_accounts : Nat
deriving DecidableEq, Repr

/-- CompiledInstruction (types/instruction.rs). -/
structure CompiledInstruction where
  program_id_index : Nat
  accounts : List Nat
  data : List Nat
deriving DecidableEq, Repr

/-- Message (types/message.rs, lines 56-65).  LegacyMessage has the same
four fields, so the embedding shares one structure for both. -/
structure Message where
  header : MessageHeader
  account_keys : List Pubkey
  recent_blockhash : List Nat
  instructions : List CompiledInstruction
deriving DecidableEq, Repr

/-- LegacyMessage (types/message.rs, lines 19-28): identical fields to Message. -/
abbrev LegacyMessage := Message

/-- MessageAddressTableLookup (types/account.rs). -/
structure MessageAddressTableLookup where
  account_key : Pubkey
  writable_indexes : List Nat
  readonly_indexes : List Nat
deriving DecidableEq, Repr

/-- VersionedMessageV0 (types/message.rs, lines 32-43). -/
structure VersionedMessageV0 where
  header : MessageHeader
  account_keys : List Pubkey
  recent_blockhash : List Nat
  instructions : List CompiledInstruction
  address_table_lookups : List MessageAddressTableLookup
deriving DecidableEq, Repr

/-- VersionedTransaction (types/transaction.rs, lines 263-278). -/
inductive VersionedTransaction where
  | legacy (signatures : List SignatureBytes) (message : LegacyMessage)
  | v0 (signatures : List SignatureBytes) (message : VersionedMessageV0)
deriving DecidableEq, Repr

/-- VersionedTransaction::signatures (types/transaction.rs, lines 351-356). -/
def VersionedTransaction.signatures : VersionedTransaction → List SignatureBytes
  | .legacy sigs _ => sigs
  | .v0 sigs _ => sigs

/-! ### Wire serialization -/

/-- The per-instruction portion of Message::serialize_for_signing
(types/message.rs, lines 122-135): program id index byte, CI-16 account
count, account index bytes, CI-16 data length, data bytes. -/
def serializeCompiledInstruction (ix : CompiledInstruction) :
    Except String (List Nat) := do
  let al ← encode_length_to_compact_u16_bytes ix.accounts.length
  let dl ← encode_length_to_compact_u16_bytes ix.data.length
  .ok ([ix.program_id_index] ++ al ++ ix.accounts ++ dl ++ ix.data)

/-- Concatenated serialization of an instruction list. -/
def serializeInstructions : List CompiledInstruction → Except String (List Nat)
  | [] => .ok []
  | ix :: rest => do
    let b ← serializeCompiledInstruction ix
    let r ← serializeInstructions rest
    .ok (b ++ r)

/-- Message::serialize_for_signing (types/message.rs, lines 101-137): header
bytes, CI-16 key count, keys, blockhash, CI-16 instruction count,
instructions. -/
def Message.serialize_for_signing (m : Message) : Except String (List Nat) := do
  let kl ← encode_length_to_compact_u16_bytes m.account_keys.length
  let il ← encode_length_to_compact_u16_bytes m.instructions.length
  let ixs ← serializeInstructions m.instructions
  .ok ([m.header.num_required_signatures,
        m.header.num_readonly_signed_accounts,
        m.header.num_readonly_unsigned_accounts]
       ++ kl ++ m.account_keys.flatten ++ m.recent_blockhash ++ il ++ ixs)

/-- One serialized address-table lookup: table key, CI-16 writable count,
writable indexes, CI-16 readonly count, readonly indexes (spec section 4.E). -/
def serializeLookup (l : MessageAddressTableLookup) : Except String (List Nat) := do
  let wl ← encode_length_to_compact_u16_bytes l.writable_indexes.length
  let rl ← encode_length_to_compact_u16_bytes l.readonly_indexes.length
  .ok (l.account_key ++ wl ++ l.writable_indexes ++ rl ++ l.readonly_indexes)

/-- Concatenated serialization of the lookup list. -/
def serializeLookups : List MessageAddressTableLookup → Except String (List Nat)
  | [] => .ok []
  | l :: rest => do
    let b ← serializeLookup l
    let r ← serializeLookups rest
    .ok (b ++ r)

/-- Modelled from the spec: VersionedMessageV0::serialize_for_signing is
invoked by VersionedTransaction::serialize_message (types/transaction.rs,
line 511) but its definition is not among the provided sources.  Spec
section 4.E fixes the v0 wire form: a version-tag byte with the high bit set
and version 0 in the low seven bits (0x80), then the legacy-shaped header,
CI-16 key count, keys, blockhash, CI-16 instruction count, instructions, and
finally the CI-16 lookup count followed by the lookups. -/
def VersionedMessageV0.serialize_for_signing (m : VersionedMessageV0) :
    Except String (List Nat) := do
  let kl ← encode_length_to_compact_u16_bytes m.account_keys.length
  let il ← encode_length_to_compact_u16_bytes m.instructions.length
  let ixs ← serializeInstructions m.instructions
  let ll ← encode_length_to_compact_u16_bytes m.address_table_lookups.length
  let ls ← serializeLookups m.address_table_lookups
  .ok (0x80 :: ([m.header.num_required_signatures,
        m.header.num_readonly_signed_accounts,
        m.header.num_readonly_unsigned_accounts]
       ++ kl ++ m.account_keys.flatten ++ m.recent_blockhash ++ il ++ ixs
       ++ ll ++ ls))

/-- VersionedTransaction::serialize_message (types/transaction.rs, lines
505-514). -/
def VersionedTransaction.serialize_message :
    VersionedTransaction → Except String (List Nat)
  | .legacy _ m => m.serialize_for_signing
  | .v0 _ m => m.serialize_for_signing

/-- VersionedTransaction::serialize (types/transaction.rs, lines 516-528):
CI-16 signature count, signatures, then the message bytes. -/
def VersionedTransaction.serialize (tx : VersionedTransaction) :
    Except String (List Nat) := do
  let sl ← encode_length_to_compact_u16_bytes tx.signatures.length
  let mb ← tx.serialize_message
  .ok (sl ++ tx.signatures.flatten ++ mb)

/-! ### Wire deserialization (manual_decode, types/transaction.rs) -/

/-- Split the next count chunks of the given width off a byte list. -/
def chunksOf : Nat → Nat → List Nat → List (List Nat)
  | 0, _, _ => []
  | n + 1, w, bytes => bytes.take w :: chunksOf n w (bytes.drop w)

/-- Consuming wrapper around decode_compact_u16_len: the callers in
types/transaction.rs advance their offset by the consumed byte count. -/
def parseCompactLen (bytes : List Nat) : Except String (Nat × List Nat) :=
  match decode_compact_u16_len bytes with
  | .error e => .error e
  | .ok (n, consumed) => .ok (n, bytes.drop consumed)

/-- The instruction-list loop shared by decode_legacy_message and
decode_v0_message (types/transaction.rs, lines 699-756): per instruction,
one program-id-index byte, a CI-16 count of account indexes, the indexes,
a CI-16 data length, and the data, each preceded by a bounds check. -/
def parseInstructionsLoop :
    Nat → List Nat → Except String (List CompiledInstruction × List Nat)
  | 0, bytes => .ok ([], bytes)
  | count + 1, bytes =>
    match bytes with
    | [] => .error "Message too short: incomplete instruction"
    | programIdIndex :: r1 =>
      if r1 = [] then .error "Message too short: no account indices count"
      else
        match parseCompactLen r1 with
        | .error e => .error e
        | .ok (accountIndicesCount, r2) =>
          if r2.length < accountIndicesCount then
            .error "Message too short: not enough account indices"
          else
            let accounts := r2.take accountIndicesCount
            let r3 := r2.drop accountIndicesCount
            if r3 = [] then .error "Message too short: no instruction data length"
            else
              match parseCompactLen r3 with
              | .error e => .error e
              | .ok (dataLength, r4) =>
                if r4.length < dataLength then
                  .error "Message too short: not enough instruction data"
                else
                  match parseInstructionsLoop count (r4.drop dataLength) with
                  | .error e => .error e
                  | .ok (ixs, rest) =>
                    .ok (⟨programIdIndex, accounts, r4.take dataLength⟩ :: ixs, rest)

/-- The address-table-lookup loop of decode_v0_message
(types/transaction.rs, lines 904-962). -/
def parseLookupsLoop :
    Nat → List Nat → Except String (List MessageAddressTableLookup × List Nat)
  | 0, bytes => .ok ([], bytes)
  | count + 1, bytes =>
    if bytes.length < 32 then
      .error "Message too short: incomplete address lookup table"
    else
      let key := bytes.take 32
      let r1 := bytes.drop 32
      if r1 = [] then .error "Message too short: no writable indexes count"
      else
        match parseCompactLen r1 with
        | .error e => .error e
        | .ok (writableCount, r2) =>
          if r2.length < writableCount then
            .error "Message too short: not enough writable indexes"
          else
            let w := r2.take writableCount
            let r3 := r2.drop writableCount
            if r3 = [] then .error "Message too short: no readonly indexes count"
            else
              match parseCompactLen r3 with
              | .error e => .error e
              | .ok (readonlyCount, r4) =>
                if r4.length < readonlyCount then
                  .error "Message too short: not enough readonly indexes"
                else
                  match parseLookupsLoop count (r4.drop readonlyCount) with
                  | .error e => .error e
                  | .ok (ls, rest) =>
                    .ok (⟨key, w, r4.take readonlyCount⟩ :: ls, rest)

/-- decode_legacy_message (types/transaction.rs, lines 635-767): three header
bytes, CI-16 key count, keys, 32-byte blockhash, CI-16 instruction count,
instructions.  Any bytes remaining after the instruction list are ignored. -/
def decode_legacy_message (bytes : List Nat) (signatures : List SignatureBytes) :
    Except String VersionedTransaction :=
  match bytes with
  | b0 :: b1 :: b2 :: r0 =>
    let header : MessageHeader := ⟨b0, b1, b2⟩
    if r0 = [] then .error "Message too short: no account count"
    else
      match parseCompactLen r0 with
      | .error e => .error e
      | .ok (accountCount, r1) =>
        if r1.length < accountCount * 32 then
          .error "Message too short: not enough bytes for accounts"
        else
          let account_keys := chunksOf accountCount 32 r1
          let r2 := r1.drop (accountCount * 32)
          if r2.length < 32 then .error "Message too short: no recent blockhash"
          else
            let recent_blockhash := r2.take 32
            let r3 := r2.drop 32
            if r3 = [] then .error "Message too short: no instruction count"
            else
              match parseCompactLen r3 with
              | .error e => .error e
              | .ok (instructionCount, r4) =>
                match parseInstructionsLoop instructionCount r4 with
                | .error e => .error e
                | .ok (instructions, _) =>
                  .ok (.legacy signatures
                    ⟨header, account_keys, recent_blockhash, instructions⟩)
  | _ => .error "Legacy message too short"

/-- decode_v0_message (types/transaction.rs, lines 771-975): the
legacy-shaped fields, then, only when bytes remain, a CI-16 lookup count and
the lookups; with no remaining bytes the lookup list is empty.  Any bytes
remaining after the lookups are ignored. -/
def decode_v0_message (bytes : List Nat) (signatures : List SignatureBytes) :
    Except String VersionedTransaction :=
  match bytes with
  | b0 :: b1 :: b2 :: r0 =>
    let header : MessageHeader := ⟨b0, b1, b2⟩
    if r0 = [] then .error "Message too short: no account count"
    else
      match parseCompactLen r0 with
      | .error e => .error e
      | .ok (accountCount, r1) =>
        if r1.length < accountCount * 32 then
          .error "Message too short: not enough bytes for accounts"
        else
          let account_keys := chunksOf accountCount 32 r1
          let r2 := r1.drop (accountCount * 32)
          if r2.length < 32 then .error "Message too short: no recent blockhash"
          else
            let recent_blockhash := r2.take 32
            let r3 := r2.drop 32
            if r3 = [] then .error "Message too short: no instruction count"
            else
              match parseCompactLen r3 with
              | .error e => .error e
              | .ok (instructionCount, r4) =>
                match parseInstructionsLoop instructionCount r4 with
                | .error e => .error e
                | .ok (instructions, r5) =>
                  if r5 = [] then
                    .ok (.v0 signatures
                      ⟨header, account_keys, recent_blockhash, instructions, []⟩)
                  else
                    match parseCompactLen r5 with
                    | .error e => .error e
                    | .ok (lookupCount, r6) =>
                      match parseLookupsLoop lookupCount r6 with
                      | .error e => .error e
                      | .ok (lookups, _) =>
                        .ok (.v0 signatures
                          ⟨header, account_keys, recent_blockhash, instructions,
                            lookups⟩)
  | _ => .error "V0 message too short"

/-- decode_message (types/transaction.rs, lines 591-620): a first byte with
the high bit set selects a versioned message (low seven bits give the
version; only 0 is supported); otherwise the bytes are a legacy message. -/
def decode_message (bytes : List Nat) (signatures : List SignatureBytes) :
    Except String VersionedTransaction :=
  if bytes.length < 3 then
    .error "Message bytes too short, need at least 3 bytes for header"
  else
    match bytes with
    | [] => .error "Message bytes too short, need at least 3 bytes for header"
    | b0 :: _ =>
      if b0 &&& 0x80 ≠ 0 then
        let version := b0 &&& 0x7F
        if version = 0 then decode_v0_message (bytes.drop 1) signatures
        else .error "Unsupported message version"
      else decode_legacy_message bytes signatures

/-- VersionedTransaction::deserialize_with_version (types/transaction.rs,
lines 531-573): CI-16 signature count, 64-byte signatures, then the message. -/
def VersionedTransaction.deserialize_with_version (bytes : List Nat) :
    Except String VersionedTransaction :=
  if bytes = [] then .error "Empty transaction data"
  else
    match parseCompactLen bytes with
    | .error e => .error e
    | .ok (numSignatures, r) =>
      if r.length < numSignatures * 64 then
        .error "Not enough bytes for signatures"
      else
        decode_message (r.drop (numSignatures * 64)) (chunksOf numSignatures 64 r)

/-! ### Well-formedness of transaction values

These conditions restate the constraints the Rust types impose (u8 byte
values, u16-bounded collection lengths, fixed 32- and 64-byte arrays) plus
the one wire constraint of a legacy message: its first byte is the
num_required_signatures count, which must leave the version high bit clear. -/

/-- All values of a byte list fit in u8. -/
def wfBytes (l : List Nat) : Bool := l.all (· < 256)

/-- A well-formed 64-byte signature. -/
def wfSignature (s : SignatureBytes) : Bool := s.length = 64 && wfBytes s

/-- A well-formed 32-byte key. -/
def wfKey (k : Pubkey) : Bool := k.length = 32 && wfBytes k

/-- A well-formed header: three u8 counts. -/
def wfHeader (h : MessageHeader) : Bool :=
  h.num_required_signatures < 256 && h.num_readonly_signed_accounts < 256 &&
    h.num_readonly_unsigned_accounts < 256

/-- A well-formed compiled instruction. -/
def wfCompiledInstruction (ix : CompiledInstruction) : Bool :=
  ix.program_id_index < 256 && ix.accounts.length ≤ 65535 &&
    wfBytes ix.accounts && ix.data.length ≤ 65535 && wfBytes ix.data

/-- A well-formed address-table lookup. -/
def wfLookup (l : MessageAddressTableLookup) : Bool :=
  wfKey l.account_key && l.writable_indexes.length ≤ 65535 &&
    wfBytes l.writable_indexes && l.readonly_indexes.length ≤ 65535 &&
    wfBytes l.readonly_indexes

/-- Well-formedness of the fields shared by legacy and v0 messages. -/
def wfMessageCore (header : MessageHeader) (keys : List Pubkey)
    (blockhash : List Nat) (ixs : List CompiledInstruction) : Bool :=
  wfHeader header && keys.length ≤ 65535 && keys.all wfKey &&
    blockhash.length = 32 && wfBytes blockhash &&
    ixs.length ≤ 65535 && ixs.all wfCompiledInstruction

/-- Well-formedness of a versioned transaction.  A legacy message must have
num_required_signatures below 128, since that byte doubles as the version
tag on the wire. -/
def VersionedTransaction.wf : VersionedTransaction → Bool
  | .legacy sigs m =>
    sigs.length ≤ 65535 && sigs.all wfSignature &&
      wfMessageCore m.header m.account_keys m.recent_blockhash m.instructions &&
      m.header.num_required_signatures < 128
  | .v0 sigs m =>
    sigs.length ≤ 65535 && sigs.all wfSignature &&
      wfMessageCore m.header m.account_keys m.recent_blockhash m.instructions &&
      m.address_table_lookups.length ≤ 65535 &&
      m.address_table_lookups.all wfLookup

/-! ### Round-trip lemmas -/

theorem encodeLoop_ne_nil (n : Nat) : encodeLoop n ≠ [] := by
  rw [encodeLoop]
  by_cases h : n >>> 7 = 0 <;> simp [h]

theorem parseCompactLen_encode (n : Nat) (hn : n ≤ 65535) (rest : List Nat) :
    parseCompactLen (encodeLoop n ++ rest) = .ok (n, rest) := by
  rw [parseCompactLen, decode_encodeLoop n hn rest]
  simp [List.drop_left]

theorem encode_append_ne_nil (n : Nat) (rest : List Nat) :
    encodeLoop n ++ rest ≠ [] := by
  simp [encodeLoop_ne_nil n]

/-- flatten of equal-width chunks parses back to the chunk list. -/
theorem chunksOf_flatten (w : Nat) (ls : List (List Nat)) (rest : List Nat)
    (h : ∀ l ∈ ls, l.length = w) :
    chunksOf ls.length w (ls.flatten ++ rest) = ls := by
  induction ls with
  | nil => rfl
  | cons l ls ih =>
    have hl : l.length = w := h l (by simp)
    rw [List.length_cons, chunksOf, List.flatten_cons, List.append_assoc,
      List.take_left' hl, List.drop_left' hl]
    rw [ih (fun x hx => h x (by simp [hx]))]

theorem drop_flatten_chunks (w : Nat) (ls : List (List Nat)) (rest : List Nat)
    (h : ∀ l ∈ ls, l.length = w) :
    (ls.flatten ++ rest).drop (ls.length * w) = rest := by
  induction ls with
  | nil => simp
  | cons l ls ih =>
    have hl : l.length = w := h l (by simp)
    rw [List.length_cons, List.flatten_cons, List.append_assoc,
      show (ls.length + 1) * w = w + ls.length * w from by ring,
      ← List.drop_drop, List.drop_left' hl]
    exact ih (fun x hx => h x (by simp [hx]))

theorem flatten_length_all (w : Nat) (ls : List (List Nat))
    (h : ∀ l ∈ ls, l.length = w) : ls.flatten.length = ls.length * w := by
  induction ls with
  | nil => simp
  | cons l ls ih =>
    rw [List.flatten_cons, List.length_append, h l (by simp),
      ih (fun x hx => h x (by simp [hx]))]
    simp [List.length_cons]
    ring

theorem append_length_not_lt {α : Type} (a X : List α) :
    ¬ ((a ++ X).length < a.length) := by
  simp [List.length_append]

/-- The byte string serializeCompiledInstruction produces on well-formed input. -/
def ixBytes (ix : CompiledInstruction) : List Nat :=
  [ix.program_id_index] ++ encodeLoop ix.accounts.length ++ ix.accounts ++
    encodeLoop ix.data.length ++ ix.data

/-- Concatenated instruction bytes. -/
def ixsBytes (ixs : List CompiledInstruction) : List Nat :=
  (ixs.map ixBytes).flatten

theorem serializeCompiledInstruction_eq (ix : CompiledInstruction)
    (ha : ix.accounts.length ≤ 65535) (hd : ix.data.length ≤ 65535) :
    serializeCompiledInstruction ix = .ok (ixBytes ix) := by
  rw [serializeCompiledInstruction, encode_length_to_compact_u16_bytes,
    if_neg (by omega), encode_length_to_compact_u16_bytes, if_neg (by omega)]
  rfl

theorem wfCompiledInstruction_bounds {ix : CompiledInstruction}
    (h : wfCompiledInstruction ix = true) :
    ix.accounts.length ≤ 65535 ∧ ix.data.length ≤ 65535 := by
  simp only [wfCompiledInstruction, Bool.and_eq_true, decide_eq_true_eq] at h
  exact ⟨h.1.1.1.2, h.1.2⟩

theorem serializeInstructions_eq (ixs : List CompiledInstruction)
    (h : ixs.all wfCompiledInstruction = true) :
    serializeInstructions ixs = .ok (ixsBytes ixs) := by
  induction ixs with
  | nil => rfl
  | cons ix ixs ih =>
    simp only [List.all_cons, Bool.and_eq_true] at h
    obtain ⟨ha, hd⟩ := wfCompiledInstruction_bounds h.1
    rw [serializeInstructions, serializeCompiledInstruction_eq ix ha hd,
      ih h.2]
    rfl

theorem parseInstructionsLoop_roundtrip (ixs : List CompiledInstruction)
    (rest : List Nat) (h : ixs.all wfCompiledInstruction = true) :
    parseInstructionsLoop ixs.length (ixsBytes ixs ++ rest) = .ok (ixs, rest) := by
  induction ixs generalizing rest with
  | nil => simp [ixsBytes, parseInstructionsLoop]
  | cons ix ixs ih =>
    simp only [List.all_cons, Bool.and_eq_true] at h
    obtain ⟨ha, hd⟩ := wfCompiledInstruction_bounds h.1
    have hbytes : ixsBytes (ix :: ixs) ++ rest =
        ix.program_id_index ::
          (encodeLoop ix.accounts.length ++ (ix.accounts ++
            (encodeLoop ix.data.length ++ (ix.data ++ (ixsBytes ixs ++ rest))))) := by
      simp [ixsBytes, ixBytes, List.append_assoc]
    rw [List.length_cons, hbytes]
    simp only [parseInstructionsLoop, ne_eq, encode_append_ne_nil,
      not_false_eq_true, if_false, ite_false, if_neg,
      parseCompactLen_encode _ ha, parseCompactLen_encode _ hd,
      append_length_not_lt, List.take_left, List.drop_left, ih rest h.2]

/-- The byte string serializeLookup produces on well-formed input. -/
def lookupBytes (l : MessageAddressTableLookup) : List Nat :=
  l.account_key ++ encodeLoop l.writable_indexes.length ++ l.writable_indexes ++
    encodeLoop l.readonly_indexes.length ++ l.readonly_indexes

/-- Concatenated lookup bytes. -/
def lookupsBytes (ls : List MessageAddressTableLookup) : List Nat :=
  (ls.map lookupBytes).flatten

theorem wfLookup_bounds {l : MessageAddressTableLookup}
    (h : wfLookup l = true) :
    l.account_key.length = 32 ∧ l.writable_indexes.length ≤ 65535 ∧
      l.readonly_indexes.length ≤ 65535 := by
  simp only [wfLookup, wfKey, Bool.and_eq_true, decide_eq_true_eq] at h
  exact ⟨h.1.1.1.1.1, h.1.1.1.2, h.1.2⟩

theorem serializeLookup_eq (l : MessageAddressTableLookup)
    (hw : l.writable_indexes.length ≤ 65535)
    (hr : l.readonly_indexes.length ≤ 65535) :
    serializeLookup l = .ok (lookupBytes l) := by
  rw [serializeLookup, encode_length_to_compact_u16_bytes, if_neg (by omega),
    encode_length_to_compact_u16_bytes, if_neg (by omega)]
  rfl

theorem serializeLookups_eq (ls : List MessageAddressTableLookup)
    (h : ls.all wfLookup = true) :
    serializeLookups ls = .ok (lookupsBytes ls) := by
  induction ls with
  | nil => rfl
  | cons l ls ih =>
    simp only [List.all_cons, Bool.and_eq_true] at h
    obtain ⟨hk, hw, hr⟩ := wfLookup_bounds h.1
    rw [serializeLookups, serializeLookup_eq l hw hr, ih h.2]
    rfl

theorem parseLookupsLoop_roundtrip (ls : List MessageAddressTableLookup)
    (rest : List Nat) (h : ls.all wfLookup = true) :
    parseLookupsLoop ls.length (lookupsBytes ls ++ rest) = .ok (ls, rest) := by
  induction ls generalizing rest with
  | nil => simp [lookupsBytes, parseLookupsLoop]
  | cons l ls ih =>
    simp only [List.all_cons, Bool.and_eq_true] at h
    obtain ⟨hk, hw, hr⟩ := wfLookup_bounds h.1
    have hbytes : lookupsBytes (l :: ls) ++ rest =
        l.account_key ++ (encodeLoop l.writable_indexes.length ++
          (l.writable_indexes ++ (encodeLoop l.readonly_indexes.length ++
            (l.readonly_indexes ++ (lookupsBytes ls ++ rest))))) := by
      simp [lookupsBytes, lookupBytes, List.append_assoc]
    have hlen32 : ¬ ((l.account_key ++ (encodeLoop l.writable_indexes.length ++
        (l.writable_indexes ++ (encodeLoop l.readonly_indexes.length ++
          (l.readonly_indexes ++ (lookupsBytes ls ++ rest)))))).length < 32) := by
      simp [List.length_append, hk]
    rw [List.length_cons, hbytes]
    simp only [parseLookupsLoop, hlen32, ne_eq, encode_append_ne_nil,
      not_false_eq_true, if_false, ite_false, if_neg,
      List.take_left' hk, List.drop_left' hk,
      parseCompactLen_encode _ hw, parseCompactLen_encode _ hr,
      append_length_not_lt, List.take_left, List.drop_left, ih rest h.2]

/-- The byte string Message::serialize_for_signing produces on well-formed
input. -/
def msgCoreBytes (header : MessageHeader) (keys : List Pubkey)
    (blockhash : List Nat) (ixs : List CompiledInstruction) : List Nat :=
  [header.num_required_signatures, header.num_readonly_signed_accounts,
    header.num_readonly_unsigned_accounts]
    ++ encodeLoop keys.length ++ keys.flatten ++ blockhash
    ++ encodeLoop ixs.length ++ ixsBytes ixs

theorem wfMessageCore_spec {header : MessageHeader} {keys : List Pubkey}
    {blockhash : List Nat} {ixs : List CompiledInstruction}
    (h : wfMessageCore header keys blockhash ixs = true) :
    keys.length ≤ 65535 ∧ (∀ k ∈ keys, k.length = 32) ∧
      blockhash.length = 32 ∧ ixs.length ≤ 65535 ∧
      ixs.all wfCompiledInstruction = true := by
  simp only [wfMessageCore, Bool.and_eq_true, decide_eq_true_eq] at h
  refine ⟨h.1.1.1.1.1.2, ?_, h.1.1.1.2, h.1.2, h.2⟩
  intro k hk
  have := h.1.1.1.1.2
  rw [List.all_eq_true] at this
  have hkk := this k hk
  simp only [wfKey, Bool.and_eq_true, decide_eq_true_eq] at hkk
  exact hkk.1

theorem serialize_for_signing_eq (m : Message)
    (h : wfMessageCore m.header m.account_keys m.recent_blockhash
      m.instructions = true) :
    m.serialize_for_signing =
      .ok (msgCoreBytes m.header m.account_keys m.recent_blockhash
        m.instructions) := by
  obtain ⟨hkl, _, _, hil, hall⟩ := wfMessageCore_spec h
  rw [Message.serialize_for_signing, encode_length_to_compact_u16_bytes,
    if_neg (by omega), encode_length_to_compact_u16_bytes, if_neg (by omega),
    serializeInstructions_eq _ hall]
  rfl

theorem not_flatten_append_length_lt_32 {keys : List Pubkey} {X : List Nat}
    (hk : ∀ k ∈ keys, k.length = 32) :
    ¬ ((keys.flatten ++ X).length < keys.length * 32) := by
  rw [List.length_append, flatten_length_all 32 keys hk]
  omega

theorem not_append_length_lt_of_len {a X : List Nat} {n : Nat}
    (ha : a.length = n) : ¬ ((a ++ X).length < n) := by
  rw [List.length_append]
  omega

theorem msgCoreBytes_shape (header : MessageHeader) (keys : List Pubkey)
    (blockhash : List Nat) (ixs : List CompiledInstruction) :
    msgCoreBytes header keys blockhash ixs =
      header.num_required_signatures ::
        header.num_readonly_signed_accounts ::
          header.num_readonly_unsigned_accounts ::
            (encodeLoop keys.length ++ (keys.flatten ++
              (blockhash ++ (encodeLoop ixs.length ++ ixsBytes ixs)))) := by
  simp [msgCoreBytes, List.append_assoc]

theorem decode_legacy_message_roundtrip (sigs : List SignatureBytes)
    (m : Message)
    (h : wfMessageCore m.header m.account_keys m.recent_blockhash
      m.instructions = true) :
    decode_legacy_message
      (msgCoreBytes m.header m.account_keys m.recent_blockhash m.instructions)
      sigs = .ok (.legacy sigs m) := by
  obtain ⟨hkl, hks, hbh, hil, hall⟩ := wfMessageCore_spec h
  have hparse : parseInstructionsLoop m.instructions.length
      (ixsBytes m.instructions) = .ok (m.instructions, []) := by
    have := parseInstructionsLoop_roundtrip m.instructions [] hall
    simpa using this
  rw [msgCoreBytes_shape]
  simp only [decode_legacy_message, ne_eq, encode_append_ne_nil,
    not_false_eq_true, ite_false,
    parseCompactLen_encode _ hkl, parseCompactLen_encode _ hil,
    not_flatten_append_length_lt_32 hks,
    chunksOf_flatten 32 m.account_keys _ hks,
    drop_flatten_chunks 32 m.account_keys _ hks,
    not_append_length_lt_of_len hbh,
    List.take_left' hbh, List.drop_left' hbh,
    hparse]

/-- The byte string VersionedMessageV0.serialize_for_signing produces on
well-formed input. -/
def msgV0Bytes (m : VersionedMessageV0) : List Nat :=
  0x80 :: (msgCoreBytes m.header m.account_keys m.recent_blockhash
    m.instructions
    ++ encodeLoop m.address_table_lookups.length
    ++ lookupsBytes m.address_table_lookups)

theorem serialize_for_signing_v0_eq (m : VersionedMessageV0)
    (h : wfMessageCore m.header m.account_keys m.recent_blockhash
      m.instructions = true)
    (hll : m.address_table_lookups.length ≤ 65535)
    (hlw : m.address_table_lookups.all wfLookup = true) :
    m.serialize_for_signing = .ok (msgV0Bytes m) := by
  obtain ⟨hkl, _, _, hil, hall⟩ := wfMessageCore_spec h
  rw [VersionedMessageV0.serialize_for_signing,
    encode_length_to_compact_u16_bytes, if_neg (by omega),
    encode_length_to_compact_u16_bytes, if_neg (by omega),
    serializeInstructions_eq _ hall,
    encode_length_to_compact_u16_bytes, if_neg (by omega),
    serializeLookups_eq _ hlw]
  rfl

theorem msgV0Body_shape (m : VersionedMessageV0) :
    msgCoreBytes m.header m.account_keys m.recent_blockhash m.instructions
      ++ encodeLoop m.address_table_lookups.length
      ++ lookupsBytes m.address_table_lookups =
      m.header.num_required_signatures ::
        m.header.num_readonly_signed_accounts ::
          m.header.num_readonly_unsigned_accounts ::
            (encodeLoop m.account_keys.length ++ (m.account_keys.flatten ++
              (m.recent_blockhash ++ (encodeLoop m.instructions.length ++
                (ixsBytes m.instructions ++
                  (encodeLoop m.address_table_lookups.length ++
                    lookupsBytes m.address_table_lookups)))))) := by
  simp [msgCoreBytes, List.append_assoc]

theorem decode_v0_message_roundtrip (sigs : List SignatureBytes)
    (m : VersionedMessageV0)
    (h : wfMessageCore m.header m.account_keys m.recent_blockhash
      m.instructions = true)
    (hll : m.address_table_lookups.length ≤ 65535)
    (hlw : m.address_table_lookups.all wfLookup = true) :
    decode_v0_message
      (msgCoreBytes m.header m.account_keys m.recent_blockhash m.instructions
        ++ encodeLoop m.address_table_lookups.length
        ++ lookupsBytes m.address_table_lookups)
      sigs = .ok (.v0 sigs m) := by
  obtain ⟨hkl, hks, hbh, hil, hall⟩ := wfMessageCore_spec h
  have hparse : parseInstructionsLoop m.instructions.length
      (ixsBytes m.instructions ++ (encodeLoop m.address_table_lookups.length ++
        lookupsBytes m.address_table_lookups)) =
      .ok (m.instructions, encodeLoop m.address_table_lookups.length ++
        lookupsBytes m.address_table_lookups) :=
    parseInstructionsLoop_roundtrip m.instructions _ hall
  have hlparse : parseLookupsLoop m.address_table_lookups.length
      (lookupsBytes m.address_table_lookups) =
      .ok (m.address_table_lookups, []) := by
    have := parseLookupsLoop_roundtrip m.address_table_lookups [] hlw
    simpa using this
  rw [msgV0Body_shape m]
  simp only [decode_v0_message, ne_eq, encode_append_ne_nil,
    not_false_eq_true, ite_false,
    parseCompactLen_encode _ hkl, parseCompactLen_encode _ hil,
    parseCompactLen_encode _ hll,
    not_flatten_append_length_lt_32 hks,
    chunksOf_flatten 32 m.account_keys _ hks,
    drop_flatten_chunks 32 m.account_keys _ hks,
    not_append_length_lt_of_len hbh,
    List.take_left' hbh, List.drop_left' hbh,
    hparse, hlparse]

theorem cons3_length_not_lt_3 {α : Type} (a b c : α) (t : List α) :
    ¬ ((a :: b :: c :: t).length < 3) := by
  simp only [List.length_cons]
  omega

theorem decode_message_legacy_roundtrip (sigs : List SignatureBytes)
    (m : Message)
    (h : wfMessageCore m.header m.account_keys m.recent_blockhash
      m.instructions = true)
    (h128 : m.header.num_required_signatures < 128) :
    decode_message
      (msgCoreBytes m.header m.account_keys m.recent_blockhash m.instructions)
      sigs = .ok (.legacy sigs m) := by
  have hns := and_128_eq_zero h128
  have hr := decode_legacy_message_roundtrip sigs m h
  rw [msgCoreBytes_shape] at hr ⊢
  simp only [decode_message, cons3_length_not_lt_3, ite_false, hns, ne_eq,
    not_true_eq_false, if_false, hr]

theorem decode_message_v0_roundtrip (sigs : List SignatureBytes)
    (m : VersionedMessageV0)
    (h : wfMessageCore m.header m.account_keys m.recent_blockhash
      m.instructions = true)
    (hll : m.address_table_lookups.length ≤ 65535)
    (hlw : m.address_table_lookups.all wfLookup = true) :
    decode_message (msgV0Bytes m) sigs = .ok (.v0 sigs m) := by
  have hr := decode_v0_message_roundtrip sigs m h hll hlw
  rw [msgV0Body_shape] at hr
  have hshape : msgV0Bytes m =
      0x80 :: (m.header.num_required_signatures ::
        m.header.num_readonly_signed_accounts ::
          m.header.num_readonly_unsigned_accounts ::
            (encodeLoop m.account_keys.length ++ (m.account_keys.flatten ++
              (m.recent_blockhash ++ (encodeLoop m.instructions.length ++
                (ixsBytes m.instructions ++
                  (encodeLoop m.address_table_lookups.length ++
                    lookupsBytes m.address_table_lookups))))))) := by
    rw [msgV0Bytes, msgV0Body_shape]
  rw [hshape]
  simp only [decode_message, cons3_length_not_lt_3, ite_false, ne_eq,
    List.drop_succ_cons, List.drop_zero, hr]
  rw [if_pos (show ¬((128 : Nat) &&& 128 = 0) from by decide),
    if_pos (show (128 : Nat) &&& 127 = 0 from by decide)]

/-- The byte string VersionedTransaction::serialize produces on well-formed
input. -/
def txBytes : VersionedTransaction → List Nat
  | .legacy sigs m =>
    encodeLoop sigs.length ++ sigs.flatten ++
      msgCoreBytes m.header m.account_keys m.recent_blockhash m.instructions
  | .v0 sigs m => encodeLoop sigs.length ++ sigs.flatten ++ msgV0Bytes m

theorem wfSignature_length {sigs : List SignatureBytes}
    (h : sigs.all wfSignature = true) : ∀ s ∈ sigs, s.length = 64 := by
  intro s hs
  rw [List.all_eq_true] at h
  have := h s hs
  simp only [wfSignature, Bool.and_eq_true, decide_eq_true_eq] at this
  exact this.1

theorem wf_legacy_spec {sigs : List SignatureBytes} {m : Message}
    (h : (VersionedTransaction.legacy sigs m).wf = true) :
    sigs.length ≤ 65535 ∧ (∀ s ∈ sigs, s.length = 64) ∧
      wfMessageCore m.header m.account_keys m.recent_blockhash
        m.instructions = true ∧
      m.header.num_required_signatures < 128 := by
  simp only [VersionedTransaction.wf, Bool.and_eq_true, decide_eq_true_eq] at h
  exact ⟨h.1.1.1, wfSignature_length h.1.1.2, h.1.2, h.2⟩

theorem wf_v0_spec {sigs : List SignatureBytes} {m : VersionedMessageV0}
    (h : (VersionedTransaction.v0 sigs m).wf = true) :
    sigs.length ≤ 65535 ∧ (∀ s ∈ sigs, s.length = 64) ∧
      wfMessageCore m.header m.account_keys m.recent_blockhash
        m.instructions = true ∧
      m.address_table_lookups.length ≤ 65535 ∧
      m.address_table_lookups.all wfLookup = true := by
  simp only [VersionedTransaction.wf, Bool.and_eq_true, decide_eq_true_eq] at h
  exact ⟨h.1.1.1.1, wfSignature_length h.1.1.1.2, h.1.1.2, h.1.2, h.2⟩

theorem serialize_eq (tx : VersionedTransaction) (h : tx.wf = true) :
    tx.serialize = .ok (txBytes tx) := by
  cases tx with
  | legacy sigs m =>
    obtain ⟨hsl, _, hcore, _⟩ := wf_legacy_spec h
    rw [VersionedTransaction.serialize]
    show (do
      let sl ← encode_length_to_compact_u16_bytes sigs.length
      let mb ← m.serialize_for_signing
      Except.ok (sl ++ sigs.flatten ++ mb)) = _
    rw [encode_length_to_compact_u16_bytes, if_neg (by omega),
      serialize_for_signing_eq m hcore]
    rfl
  | v0 sigs m =>
    obtain ⟨hsl, _, hcore, hll, hlw⟩ := wf_v0_spec h
    rw [VersionedTransaction.serialize]
    show (do
      let sl ← encode_length_to_compact_u16_bytes sigs.length
      let mb ← m.serialize_for_signing
      Except.ok (sl ++ sigs.flatten ++ mb)) = _
    rw [encode_length_to_compact_u16_bytes, if_neg (by omega),
      serialize_for_signing_v0_eq m hcore hll hlw]
    rfl

theorem not_sigflatten_append_length_lt {sigs : List SignatureBytes}
    {X : List Nat} (hs : ∀ s ∈ sigs, s.length = 64) :
    ¬ ((sigs.flatten ++ X).length < sigs.length * 64) := by
  rw [List.length_append, flatten_length_all 64 sigs hs]
  omega

theorem deserialize_txBytes (tx : VersionedTransaction) (h : tx.wf = true) :
    VersionedTransaction.deserialize_with_version (txBytes tx) = .ok tx := by
  cases tx with
  | legacy sigs m =>
    obtain ⟨hsl, hslen, hcore, h128⟩ := wf_legacy_spec h
    have hshape : txBytes (.legacy sigs m) =
        encodeLoop sigs.length ++ (sigs.flatten ++
          msgCoreBytes m.header m.account_keys m.recent_blockhash
            m.instructions) := by
      simp [txBytes, List.append_assoc]
    rw [hshape, VersionedTransaction.deserialize_with_version,
      if_neg (encode_append_ne_nil _ _)]
    simp only [parseCompactLen_encode _ hsl,
      not_sigflatten_append_length_lt hslen, ite_false,
      chunksOf_flatten 64 sigs _ hslen, drop_flatten_chunks 64 sigs _ hslen,
      decode_message_legacy_roundtrip sigs m hcore h128]
  | v0 sigs m =>
    obtain ⟨hsl, hslen, hcore, hll, hlw⟩ := wf_v0_spec h
    have hshape : txBytes (.v0 sigs m) =
        encodeLoop sigs.length ++ (sigs.flatten ++ msgV0Bytes m) := by
      simp [txBytes, List.append_assoc]
    rw [hshape, VersionedTransaction.deserialize_with_version,
      if_neg (encode_append_ne_nil _ _)]
    simp only [parseCompactLen_encode _ hsl,
      not_sigflatten_append_length_lt hslen, ite_false,
      chunksOf_flatten 64 sigs _ hslen, drop_flatten_chunks 64 sigs _ hslen,
      decode_message_v0_roundtrip sigs m hcore hll hlw]

/-- C1 (amended): for every well-formed transaction value, serialization
succeeds and deserializing the produced bytes returns exactly the original
transaction; so the bit-exact round-trip holds for every byte string in the
image of the serializer.  (The claim as stated, over every accepted input
byte string, is refuted by serialize_deserialize_not_id below.) -/
theorem deserialize_serialize_roundtrip (tx : VersionedTransaction)
    (h : tx.wf = true) :
    ∃ bs, tx.serialize = .ok bs ∧
      VersionedTransaction.deserialize_with_version bs = .ok tx :=
  ⟨txBytes tx, serialize_eq tx h, deserialize_txBytes tx h⟩

/-- Witness for deserialize_serialize_roundtrip: a two-key legacy
transaction with one signature slot and one instruction. -/
theorem deserialize_serialize_roundtrip_witness :
    (VersionedTransaction.legacy [List.replicate 64 7]
      ⟨⟨1, 0, 1⟩, [List.replicate 32 1, List.replicate 32 2],
        List.replicate 32 9,
        [⟨1, [0], [5, 6]⟩]⟩).wf = true ∧
    ∃ bs, (VersionedTransaction.legacy [List.replicate 64 7]
      ⟨⟨1, 0, 1⟩, [List.replicate 32 1, List.replicate 32 2],
        List.replicate 32 9,
        [⟨1, [0], [5, 6]⟩]⟩).serialize = .ok bs ∧
      VersionedTransaction.deserialize_with_version bs =
        .ok (VersionedTransaction.legacy [List.replicate 64 7]
          ⟨⟨1, 0, 1⟩, [List.replicate 32 1, List.replicate 32 2],
            List.replicate 32 9,
            [⟨1, [0], [5, 6]⟩]⟩) :=
  ⟨by decide, deserialize_serialize_roundtrip _ (by decide)⟩

instance {e a : Type} [DecidableEq e] [DecidableEq a] :
    DecidableEq (Except e a) := fun x y =>
  match x, y with
  | .error u, .error v =>
    if h : u = v then isTrue (by rw [h]) else isFalse (by simp [h])
  | .ok u, .ok v =>
    if h : u = v then isTrue (by rw [h]) else isFalse (by simp [h])
  | .error _, .ok _ => isFalse (by simp)
  | .ok _, .error _ => isFalse (by simp)

/-- C1 counterexample: the 39-byte input below (a minimal legacy transaction
followed by one trailing junk byte 7) deserializes successfully, but
re-serializing the resulting transaction drops the trailing byte, so the
output is not the input: serialize after deserialize is not the identity on
accepted byte strings. -/
theorem serialize_not_inverse_counterexample :
    VersionedTransaction.deserialize_with_version
      ([0, 0, 0, 0, 0] ++ List.replicate 32 0 ++ [0, 7]) =
      .ok (.legacy [] ⟨⟨0, 0, 0⟩, [], List.replicate 32 0, []⟩) ∧
    (VersionedTransaction.legacy [] ⟨⟨0, 0, 0⟩, [],
      List.replicate 32 0, []⟩).serialize ≠
      .ok ([0, 0, 0, 0, 0] ++ List.replicate 32 0 ++ [0, 7]) := by
  constructor
  · decide
  · rw [serialize_eq _ (by decide)]
    have henc : encodeLoop 0 = [0] := encodeLoop_small (by omega)
    simp [txBytes, msgCoreBytes, ixsBytes, henc]

/-! ### Message compiler (builder/transaction.rs) -/

/-- AccountMeta (types/instruction.rs): address plus usage flags. -/
structure AccountMeta where
  pubkey : Pubkey
  is_signer : Bool
  is_writable : Bool
deriving DecidableEq, Repr

/-- Instruction (types/instruction.rs): pre-compile form. -/
structure Instruction where
  program_id : Pubkey
  accounts : List AccountMeta
  data : List Nat
deriving DecidableEq, Repr

/-- Transaction (types/transaction.rs, lines 14-19). -/
structure Transaction where
  signatures : List SignatureBytes
  message : Message
deriving DecidableEq, Repr

/-- TransactionBuilder (builder/transaction.rs, lines 9-18).  The Rust
account_metas field is a HashMap grown by entry-api inserts and merges and
consumed only through whole-map iteration (categorization, counts) and
lookups; the embedding represents it as an association list with unique
keys in insertion order.  build sorts every bucket and takes counts, so its
output depends only on the map contents, not on iteration order. -/
structure TransactionBuilder where
  fee_payer : Pubkey
  instructions : List Instruction
  recent_blockhash : List Nat
  account_metas : List (Pubkey × AccountMeta)
deriving DecidableEq, Repr

/-- TransactionBuilder::new (builder/transaction.rs, lines 22-39): the map
starts with the fee payer as a writable signer. -/
def TransactionBuilder.new (fee_payer : Pubkey) (recent_blockhash : List Nat) :
    TransactionBuilder :=
  ⟨fee_payer, [], recent_blockhash, [(fee_payer, ⟨fee_payer, true, true⟩)]⟩

/-- HashMap::entry(k).or_insert(v): insert only when the key is absent. -/
def insertIfAbsent (m : List (Pubkey × AccountMeta)) (k : Pubkey)
    (v : AccountMeta) : List (Pubkey × AccountMeta) :=
  if (m.lookup k).isSome then m else m ++ [(k, v)]

/-- HashMap::entry(k).and_modify(or-merge).or_insert(meta)
(builder/transaction.rs, lines 54-63): merge signer and writable flags by
logical OR when the key is present, insert the given meta otherwise. -/
def upsertMerge (m : List (Pubkey × AccountMeta)) (meta : AccountMeta) :
    List (Pubkey × AccountMeta) :=
  if (m.lookup meta.pubkey).isSome then
    m.map (fun e =>
      if e.1 = meta.pubkey then
        (e.1, ⟨e.2.pubkey, e.2.is_signer || meta.is_signer,
          e.2.is_writable || meta.is_writable⟩)
      else e)
  else m ++ [(meta.pubkey, meta)]

/-- TransactionBuilder::add_instruction (builder/transaction.rs, lines
42-66): default the program id to a readonly non-signer, then OR-merge every
account of the instruction, then record the instruction. -/
def TransactionBuilder.add_instruction (b : TransactionBuilder)
    (ix : Instruction) : TransactionBuilder :=
  let m1 := insertIfAbsent b.account_metas ix.program_id
    ⟨ix.program_id, false, false⟩
  let m2 := ix.accounts.foldl (fun m meta => upsertMerge m meta) m1
  { b with account_metas := m2, instructions := b.instructions ++ [ix] }

/-- The lexicographic byte ordering used by Pubkey's Ord instance
(types/pubkey.rs: cmp on the underlying [u8; 32]), as a Boolean relation
for sorting. -/
def pubkeyLe (a b : Pubkey) : Bool := decide (a ≤ b)

/-- TransactionBuilder::build (builder/transaction.rs, lines 69-201).  The
Rust function always returns Ok, so the embedding is a plain function.  The
key_to_index map resolves each key to its first position in the final key
table (positions are unique because the table is deduplicated), truncated
to u8 as in the source. -/
def TransactionBuilder.build (b : TransactionBuilder) : Transaction :=
  let others := b.account_metas.filter (fun e => e.1 ≠ b.fee_payer)
  let writable_signers :=
    ((others.filter (fun e => e.2.is_signer && e.2.is_writable)).map
      Prod.fst).mergeSort pubkeyLe
  let readonly_signers :=
    ((others.filter (fun e => e.2.is_signer && !e.2.is_writable)).map
      Prod.fst).mergeSort pubkeyLe
  let writable_non_signers :=
    ((others.filter (fun e => !e.2.is_signer && e.2.is_writable)).map
      Prod.fst).mergeSort pubkeyLe
  let readonly_non_signers :=
    ((others.filter (fun e => !e.2.is_signer && !e.2.is_writable)).map
      Prod.fst).mergeSort pubkeyLe
  let account_keys :=
    (writable_signers ++ readonly_signers ++ writable_non_signers ++
      readonly_non_signers).foldl
      (fun acc k => if k ∈ acc then acc else acc ++ [k]) [b.fee_payer]
  let key_to_index := fun k => (account_keys.indexOf k) % 256
  let compiled := b.instructions.map (fun ix =>
    CompiledInstruction.mk (key_to_index ix.program_id)
      (ix.accounts.map (fun meta => key_to_index meta.pubkey)) ix.data)
  let num_required_signatures :=
    (b.account_metas.filter (fun e => e.2.is_signer)).length % 256
  let num_readonly_signed_accounts :=
    (b.account_metas.filter
      (fun e => e.2.is_signer && !e.2.is_writable)).length % 256
  let num_readonly_unsigned_accounts :=
    (b.account_metas.filter
      (fun e => !e.2.is_signer && !e.2.is_writable)).length % 256
  ⟨List.replicate num_required_signatures (List.replicate 64 0),
    ⟨⟨num_required_signatures, num_readonly_signed_accounts,
      num_readonly_unsigned_accounts⟩,
      account_keys, b.recent_blockhash, compiled⟩⟩

/-- The builder obtained from new followed by add_instruction on each
element of the list, the only construction path the library offers. -/
def builderFor (fee_payer : Pubkey) (recent_blockhash : List Nat)
    (ixs : List Instruction) : TransactionBuilder :=
  ixs.foldl TransactionBuilder.add_instruction
    (TransactionBuilder.new fee_payer recent_blockhash)

/-! ### Builder invariants -/

/-- The account map always has the fee payer at its head with both flags
set, and its keys are unique. -/
def builderInv (b : TransactionBuilder) : Prop :=
  ∃ rest, b.account_metas = (b.fee_payer, ⟨b.fee_payer, true, true⟩) :: rest ∧
    b.fee_payer ∉ rest.map Prod.fst ∧ (rest.map Prod.fst).Nodup

theorem lookup_isSome_iff {m : List (Pubkey × AccountMeta)} {k : Pubkey} :
    (m.lookup k).isSome ↔ k ∈ m.map Prod.fst := by
  induction m with
  | nil => simp [List.lookup]
  | cons e m ih =>
    by_cases h : k = e.1
    · simp [List.lookup, h]
    · have hbeq : (k == e.1) = false := beq_false_of_ne h
      simp [List.lookup, hbeq, ih, Ne.symm h, h]

theorem lookup_eq_of_mem_nodup {m : List (Pubkey × AccountMeta)} {k : Pubkey}
    {v : AccountMeta} (hmem : (k, v) ∈ m) (hnd : (m.map Prod.fst).Nodup) :
    m.lookup k = some v := by
  induction m with
  | nil => simp at hmem
  | cons e m ih =>
    rcases List.mem_cons.mp hmem with h | h
    · subst h
      simp [List.lookup]
    · have hk : k ∈ m.map Prod.fst := by
        exact List.mem_map.mpr ⟨(k, v), h, rfl⟩
      have hne : k ≠ e.1 := by
        intro hc
        rw [List.map_cons, List.nodup_cons] at hnd
        exact hnd.1 (hc ▸ hk)
      have hbeq : (k == e.1) = false := beq_false_of_ne hne
      rw [List.map_cons, List.nodup_cons] at hnd
      simp [List.lookup, hbeq, ih h hnd.2]

theorem insertIfAbsent_inv {b : TransactionBuilder} (h : builderInv b)
    (k : Pubkey) (v : AccountMeta) :
    builderInv { b with account_metas := insertIfAbsent b.account_metas k v } := by
  obtain ⟨rest, hm, hfp, hnd⟩ := h
  rw [insertIfAbsent]
  by_cases hs : (b.account_metas.lookup k).isSome
  · rw [if_pos hs]
    exact ⟨rest, hm, hfp, hnd⟩
  · rw [if_neg hs]
    have hk : k ∉ b.account_metas.map Prod.fst := by
      rw [← lookup_isSome_iff]
      simpa using hs
    rw [hm] at hk ⊢
    simp only [List.map_cons, List.mem_cons, not_or] at hk
    refine ⟨rest ++ [(k, v)], by simp, ?_, ?_⟩
    · simp only [List.map_append, List.mem_append]
      rintro (hc | hc)
      · exact hfp hc
      · simp at hc
        exact hk.1 hc.symm
    · rw [List.map_append, List.nodup_append]
      refine ⟨hnd, by simp, ?_⟩
      intro x hx
      simp only [List.map_cons, List.map_nil, List.mem_singleton]
      intro hc
      subst hc
      exact hk.2 hx

theorem upsertMerge_keys (m : List (Pubkey × AccountMeta)) (meta : AccountMeta) :
    (upsertMerge m meta).map Prod.fst =
      if (m.lookup meta.pubkey).isSome then m.map Prod.fst
      else m.map Prod.fst ++ [meta.pubkey] := by
  rw [upsertMerge]
  by_cases hs : (m.lookup meta.pubkey).isSome
  · rw [if_pos hs, if_pos hs, List.map_map]
    congr 1
    funext e
    by_cases h : e.1 = meta.pubkey <;> simp [h]
  · rw [if_neg hs, if_neg hs]
    simp

theorem upsertMerge_inv {b : TransactionBuilder} (h : builderInv b)
    (meta : AccountMeta) :
    builderInv { b with account_metas := upsertMerge b.account_metas meta } := by
  obtain ⟨rest, hm, hfp, hnd⟩ := h
  rw [upsertMerge]
  by_cases hs : (b.account_metas.lookup meta.pubkey).isSome
  · rw [if_pos hs, hm]
    by_cases hk : b.fee_payer = meta.pubkey
    · refine ⟨rest.map (fun e =>
        if e.1 = meta.pubkey then
          (e.1, ⟨e.2.pubkey, e.2.is_signer || meta.is_signer,
            e.2.is_writable || meta.is_writable⟩)
        else e), ?_, ?_, ?_⟩
      · simp [hk]
      · have : (rest.map (fun e =>
            if e.1 = meta.pubkey then
              (e.1, (⟨e.2.pubkey, e.2.is_signer || meta.is_signer,
                e.2.is_writable || meta.is_writable⟩ : AccountMeta))
            else e)).map Prod.fst = rest.map Prod.fst := by
          rw [List.map_map]
          congr 1
          funext e
          by_cases h : e.1 = meta.pubkey <;> simp [h]
        rw [this]
        exact hfp
      · have : (rest.map (fun e =>
            if e.1 = meta.pubkey then
              (e.1, (⟨e.2.pubkey, e.2.is_signer || meta.is_signer,
                e.2.is_writable || meta.is_writable⟩ : AccountMeta))
            else e)).map Prod.fst = rest.map Prod.fst := by
          rw [List.map_map]
          congr 1
          funext e
          by_cases h : e.1 = meta.pubkey <;> simp [h]
        rw [this]
        exact hnd
    · refine ⟨rest.map (fun e =>
        if e.1 = meta.pubkey then
          (e.1, ⟨e.2.pubkey, e.2.is_signer || meta.is_signer,
            e.2.is_writable || meta.is_writable⟩)
        else e), ?_, ?_, ?_⟩
      · simp [hk]
      · have : (rest.map (fun e =>
            if e.1 = meta.pubkey then
              (e.1, (⟨e.2.pubkey, e.2.is_signer || meta.is_signer,
                e.2.is_writable || meta.is_writable⟩ : AccountMeta))
            else e)).map Prod.fst = rest.map Prod.fst := by
          rw [List.map_map]
          congr 1
          funext e
          by_cases h : e.1 = meta.pubkey <;> simp [h]
        rw [this]
        exact hfp
      · have : (rest.map (fun e =>
            if e.1 = meta.pubkey then
              (e.1, (⟨e.2.pubkey, e.2.is_signer || meta.is_signer,
                e.2.is_writable || meta.is_writable⟩ : AccountMeta))
            else e)).map Prod.fst = rest.map Prod.fst := by
          rw [List.map_map]
          congr 1
          funext e
          by_cases h : e.1 = meta.pubkey <;> simp [h]
        rw [this]
        exact hnd
  · rw [if_neg hs]
    have hk : meta.pubkey ∉ b.account_metas.map Prod.fst := by
      rw [← lookup_isSome_iff]
      simpa using hs
    rw [hm] at hk ⊢
    simp only [List.map_cons, List.mem_cons, not_or] at hk
    refine ⟨rest ++ [(meta.pubkey, meta)], by simp, ?_, ?_⟩
    · simp only [List.map_append, List.mem_append]
      rintro (hc | hc)
      · exact hfp hc
      · simp at hc
        exact hk.1 hc.symm
    · rw [List.map_append, List.nodup_append]
      refine ⟨hnd, by simp, ?_⟩
      intro x hx
      simp only [List.map_cons, List.map_nil, List.mem_singleton]
      intro hc
      subst hc
      exact hk.2 hx

theorem foldl_upsertMerge_inv {b : TransactionBuilder}
    (metas : List AccountMeta) (h : builderInv b) :
    builderInv { b with
      account_metas :=
        metas.foldl (fun m meta => upsertMerge m meta) b.account_metas } := by
  induction metas generalizing b with
  | nil => simpa using h
  | cons meta metas ih =>
    have h1 := upsertMerge_inv h meta
    have := ih h1
    simpa using this

theorem add_instruction_inv {b : TransactionBuilder} (h : builderInv b)
    (ix : Instruction) : builderInv (b.add_instruction ix) := by
  rw [TransactionBuilder.add_instruction]
  have h1 := insertIfAbsent_inv h ix.program_id ⟨ix.program_id, false, false⟩
  have h2 := foldl_upsertMerge_inv ix.accounts h1
  obtain ⟨rest, hm, hfp, hnd⟩ := h2
  exact ⟨rest, hm, hfp, hnd⟩

theorem builderFor_inv (fee_payer : Pubkey) (recent_blockhash : List Nat)
    (ixs : List Instruction) :
    builderInv (builderFor fee_payer recent_blockhash ixs) := by
  rw [builderFor]
  have base : builderInv (TransactionBuilder.new fee_payer recent_blockhash) :=
    ⟨[], rfl, by simp, by simp⟩
  generalize TransactionBuilder.new fee_payer recent_blockhash = b at base ⊢
  induction ixs generalizing b with
  | nil => simpa using base
  | cons ix ixs ih => exact ih _ (add_instruction_inv base ix)

theorem pubkeyLe_trans (a b c : Pubkey) (h1 : pubkeyLe a b) (h2 : pubkeyLe b c) :
    pubkeyLe a c := by
  simp only [pubkeyLe, decide_eq_true_eq] at *
  exact le_trans h1 h2

theorem pubkeyLe_total (a b : Pubkey) : pubkeyLe a b || pubkeyLe b a := by
  rcases le_total a b with h | h <;> simp [pubkeyLe, h]

/-- Generic dedup fold: when the incoming keys are fresh and distinct, the
fold is a plain append. -/
theorem foldl_dedup (L : List Pubkey) (acc : List Pubkey) (hnd : L.Nodup)
    (hdisj : ∀ k ∈ L, k ∉ acc) :
    L.foldl (fun acc k => if k ∈ acc then acc else acc ++ [k]) acc =
      acc ++ L := by
  induction L generalizing acc with
  | nil => simp
  | cons k L ih =>
    rw [List.nodup_cons] at hnd
    rw [List.foldl_cons, if_neg (hdisj k (by simp))]
    rw [ih (acc ++ [k]) hnd.2]
    · simp
    · intro x hx
      simp only [List.mem_append, List.mem_singleton, not_or]
      exact ⟨hdisj x (by simp [hx]), fun hc => hnd.1 (hc ▸ hx)⟩

/-- The four flag buckets are a permutation-partition of the entry list. -/
theorem partition4_perm (l : List (Pubkey × AccountMeta)) :
    (l.filter (fun e => e.2.is_signer && e.2.is_writable) ++
      (l.filter (fun e => e.2.is_signer && !e.2.is_writable) ++
        (l.filter (fun e => !e.2.is_signer && e.2.is_writable) ++
          l.filter (fun e => !e.2.is_signer && !e.2.is_writable)))).Perm l := by
  induction l with
  | nil => simp
  | cons e l ih =>
    rcases hs : e.2.is_signer <;> rcases hw : e.2.is_writable <;>
      simp only [List.filter_cons, hs, hw, Bool.not_true, Bool.not_false,
        Bool.and_true, Bool.and_false, Bool.true_and, Bool.false_and,
        Bool.and_self, if_true, if_false, List.cons_append,
        Bool.false_eq_true, Bool.true_eq_false, ite_false, ite_true]
    · exact (List.Perm.append_left _
        (List.Perm.append_left _ List.perm_middle)).trans
        ((List.Perm.append_left _ List.perm_middle).trans
          (List.perm_middle.trans (ih.cons e)))
    · exact (List.Perm.append_left _ List.perm_middle).trans
        (List.perm_middle.trans (ih.cons e))
    · exact List.perm_middle.trans (ih.cons e)
    · exact ih.cons e

/-- Splitting a filtered list by a second predicate preserves total length. -/
theorem filter_split_length (l : List (Pubkey × AccountMeta))
    (p q : (Pubkey × AccountMeta) → Bool) :
    (l.filter (fun e => p e && q e)).length +
      (l.filter (fun e => p e && !q e)).length = (l.filter p).length := by
  induction l with
  | nil => simp
  | cons e l ih =>
    rcases hp : p e <;> rcases hq : q e <;>
      simp only [List.filter_cons, hp, hq, Bool.not_true, Bool.not_false,
        Bool.and_true, Bool.and_false, Bool.true_and, Bool.false_and,
        Bool.false_eq_true, Bool.true_eq_false, ite_true, ite_false,
        List.length_cons] <;>
      omega

theorem bucket_lookup {rest : List (Pubkey × AccountMeta)} {fp : Pubkey}
    {fpm : AccountMeta}
    (hfp : fp ∉ rest.map Prod.fst) (hnd : (rest.map Prod.fst).Nodup)
    (P : (Pubkey × AccountMeta) → Bool) {k : Pubkey}
    (hk : k ∈ (rest.filter P).map Prod.fst) :
    ∃ a, (((fp, fpm) :: rest).lookup k) = some a ∧ P (k, a) = true := by
  obtain ⟨e, he, hk'⟩ := List.mem_map.mp hk
  obtain ⟨hmem, hPe⟩ := List.mem_filter.mp he
  subst hk'
  have hne : e.1 ≠ fp := fun hc =>
    hfp (hc ▸ List.mem_map.mpr ⟨e, hmem, rfl⟩)
  have hbeq : (e.1 == fp) = false := beq_false_of_ne hne
  refine ⟨e.2, ?_, ?_⟩
  · have hmem' : (e.1, e.2) ∈ rest := by simpa using hmem
    simp [List.lookup, hbeq, lookup_eq_of_mem_nodup hmem' hnd]
  · simpa using hPe

theorem build_spec (b : TransactionBuilder) (hinv : builderInv b)
    (hsz : b.account_metas.length ≤ 255) :
    ∃ ws rs wn rn,
      b.build.message.account_keys = b.fee_payer :: (ws ++ rs ++ wn ++ rn) ∧
      (ws ++ rs ++ wn ++ rn).Perm
        ((b.account_metas.filter (fun e => e.1 ≠ b.fee_payer)).map Prod.fst) ∧
      List.Pairwise (fun x y => pubkeyLe x y = true) ws ∧
      List.Pairwise (fun x y => pubkeyLe x y = true) rs ∧
      List.Pairwise (fun x y => pubkeyLe x y = true) wn ∧
      List.Pairwise (fun x y => pubkeyLe x y = true) rn ∧
      (∀ k ∈ ws, ∃ a, b.account_metas.lookup k = some a ∧
        a.is_signer = true ∧ a.is_writable = true) ∧
      (∀ k ∈ rs, ∃ a, b.account_metas.lookup k = some a ∧
        a.is_signer = true ∧ a.is_writable = false) ∧
      (∀ k ∈ wn, ∃ a, b.account_metas.lookup k = some a ∧
        a.is_signer = false ∧ a.is_writable = true) ∧
      (∀ k ∈ rn, ∃ a, b.account_metas.lookup k = some a ∧
        a.is_signer = false ∧ a.is_writable = false) ∧
      b.build.message.header.num_required_signatures =
        1 + ws.length + rs.length ∧
      b.build.message.header.num_readonly_signed_accounts = rs.length ∧
      b.build.message.header.num_readonly_unsigned_accounts = rn.length ∧
      b.fee_payer ∉ ws ++ rs ++ wn ++ rn ∧
      (ws ++ rs ++ wn ++ rn).Nodup := by
  obtain ⟨rest, hm, hfp, hnd⟩ := hinv
  have hothers : b.account_metas.filter (fun e => e.1 ≠ b.fee_payer) = rest := by
    have hall : ∀ e ∈ rest, (fun (e : Pubkey × AccountMeta) =>
        decide (e.1 ≠ b.fee_payer)) e = true := by
      intro e he
      simp only [ne_eq, decide_eq_true_eq]
      intro hc
      exact hfp (hc ▸ List.mem_map.mpr ⟨e, he, rfl⟩)
    rw [hm, List.filter_cons]
    rw [if_neg (by simp)]
    exact List.filter_eq_self.mpr hall
  refine ⟨((rest.filter (fun e => e.2.is_signer && e.2.is_writable)).map
      Prod.fst).mergeSort pubkeyLe,
    ((rest.filter (fun e => e.2.is_signer && !e.2.is_writable)).map
      Prod.fst).mergeSort pubkeyLe,
    ((rest.filter (fun e => !e.2.is_signer && e.2.is_writable)).map
      Prod.fst).mergeSort pubkeyLe,
    ((rest.filter (fun e => !e.2.is_signer && !e.2.is_writable)).map
      Prod.fst).mergeSort pubkeyLe, ?_⟩
  set ws := ((rest.filter (fun e => e.2.is_signer && e.2.is_writable)).map
      Prod.fst).mergeSort pubkeyLe with hws
  set rs := ((rest.filter (fun e => e.2.is_signer && !e.2.is_writable)).map
      Prod.fst).mergeSort pubkeyLe with hrs
  set wn := ((rest.filter (fun e => !e.2.is_signer && e.2.is_writable)).map
      Prod.fst).mergeSort pubkeyLe with hwn
  set rn := ((rest.filter (fun e => !e.2.is_signer && !e.2.is_writable)).map
      Prod.fst).mergeSort pubkeyLe with hrn
  have hpermL : (ws ++ rs ++ wn ++ rn).Perm (rest.map Prod.fst) := by
    have h1 : (ws ++ rs ++ wn ++ rn).Perm
        ((rest.filter (fun e => e.2.is_signer && e.2.is_writable)).map Prod.fst ++
          (rest.filter (fun e => e.2.is_signer && !e.2.is_writable)).map Prod.fst ++
          (rest.filter (fun e => !e.2.is_signer && e.2.is_writable)).map Prod.fst ++
          (rest.filter (fun e => !e.2.is_signer && !e.2.is_writable)).map Prod.fst) := by
      exact List.Perm.append (List.Perm.append (List.Perm.append
        (List.mergeSort_perm _ _) (List.mergeSort_perm _ _))
        (List.mergeSort_perm _ _)) (List.mergeSort_perm _ _)
    refine h1.trans ?_
    have h2 := (partition4_perm rest).map Prod.fst
    simp only [List.map_append] at h2
    refine List.Perm.trans ?_ h2
    simp [List.append_assoc]
  have hndL : (ws ++ rs ++ wn ++ rn).Nodup := hpermL.nodup_iff.mpr hnd
  have hfpL : b.fee_payer ∉ ws ++ rs ++ wn ++ rn := by
    intro hc
    exact hfp (hpermL.subset hc)
  have hkeys : (ws ++ rs ++ wn ++ rn).foldl
      (fun acc k => if k ∈ acc then acc else acc ++ [k]) [b.fee_payer] =
      b.fee_payer :: (ws ++ rs ++ wn ++ rn) := by
    rw [foldl_dedup _ _ hndL]
    · simp
    · intro k hk
      simp only [List.mem_singleton]
      intro hc
      exact hfpL (hc ▸ hk)
  have hfps : (⟨b.fee_payer, true, true⟩ : AccountMeta).is_signer = true := rfl
  have hcount_s : (b.account_metas.filter
      (fun e => e.2.is_signer)).length = 1 +
      ((rest.filter (fun e => e.2.is_signer && e.2.is_writable)).length +
        (rest.filter (fun e => e.2.is_signer && !e.2.is_writable)).length) := by
    rw [hm, List.filter_cons]
    simp only [hfps, ite_true, List.length_cons,
      filter_split_length rest (fun e => e.2.is_signer)
        (fun e => e.2.is_writable)]
    omega
  have hcount_rs : (b.account_metas.filter
      (fun e => e.2.is_signer && !e.2.is_writable)).length =
      (rest.filter (fun e => e.2.is_signer && !e.2.is_writable)).length := by
    rw [hm, List.filter_cons]
    simp
  have hcount_rn : (b.account_metas.filter
      (fun e => !e.2.is_signer && !e.2.is_writable)).length =
      (rest.filter (fun e => !e.2.is_signer && !e.2.is_writable)).length := by
    rw [hm, List.filter_cons]
    simp
  have hlws : ws.length =
      (rest.filter (fun e => e.2.is_signer && e.2.is_writable)).length := by
    rw [hws, (List.mergeSort_perm _ _).length_eq, List.length_map]
  have hlrs : rs.length =
      (rest.filter (fun e => e.2.is_signer && !e.2.is_writable)).length := by
    rw [hrs, (List.mergeSort_perm _ _).length_eq, List.length_map]
  have hlwn : wn.length =
      (rest.filter (fun e => !e.2.is_signer && e.2.is_writable)).length := by
    rw [hwn, (List.mergeSort_perm _ _).length_eq, List.length_map]
  have hlrn : rn.length =
      (rest.filter (fun e => !e.2.is_signer && !e.2.is_writable)).length := by
    rw [hrn, (List.mergeSort_perm _ _).length_eq, List.length_map]
  have hle_s : (b.account_metas.filter (fun e => e.2.is_signer)).length ≤ 255 :=
    le_trans (List.length_filter_le _ _) hsz
  have hle_rs : (b.account_metas.filter
      (fun e => e.2.is_signer && !e.2.is_writable)).length ≤ 255 :=
    le_trans (List.length_filter_le _ _) hsz
  have hle_rn : (b.account_metas.filter
      (fun e => !e.2.is_signer && !e.2.is_writable)).length ≤ 255 :=
    le_trans (List.length_filter_le _ _) hsz
  have hbuild_keys : b.build.message.account_keys =
      b.fee_payer :: (ws ++ rs ++ wn ++ rn) := by
    simp only [TransactionBuilder.build, hothers, ← hws, ← hrs, ← hwn, ← hrn]
    exact hkeys
  have hbuild_nrs : b.build.message.header.num_required_signatures =
      1 + ws.length + rs.length := by
    simp only [TransactionBuilder.build]
    rw [hcount_s, Nat.mod_eq_of_lt (by omega), hlws, hlrs]
    omega
  have hbuild_ros : b.build.message.header.num_readonly_signed_accounts =
      rs.length := by
    simp only [TransactionBuilder.build]
    rw [hcount_rs, hlrs]
    rw [hcount_rs] at hle_rs
    exact Nat.mod_eq_of_lt (by omega)
  have hbuild_rou : b.build.message.header.num_readonly_unsigned_accounts =
      rn.length := by
    simp only [TransactionBuilder.build]
    rw [hcount_rn, hlrn]
    rw [hcount_rn] at hle_rn
    exact Nat.mod_eq_of_lt (by omega)
  have hsorted : ∀ l : List Pubkey,
      List.Pairwise (fun x y => pubkeyLe x y = true) (l.mergeSort pubkeyLe) :=
    fun l => List.sorted_mergeSort pubkeyLe_trans pubkeyLe_total l
  refine ⟨hbuild_keys, by rw [hothers]; exact hpermL,
    hws ▸ hsorted _, hrs ▸ hsorted _, hwn ▸ hsorted _, hrn ▸ hsorted _,
    ?_, ?_, ?_, ?_, hbuild_nrs, hbuild_ros, hbuild_rou, hfpL, hndL⟩
  · intro k hk
    rw [hws, List.mem_mergeSort] at hk
    obtain ⟨a, hla, hPa⟩ := bucket_lookup hfp hnd _ hk
    rw [hm]
    refine ⟨a, hla, ?_, ?_⟩ <;>
      simpa using (Bool.and_eq_true _ _ ▸ hPa : _ ∧ _) |>.elim
        (fun _ _ => by assumption) |> fun _ => by
          simp only [Bool.and_eq_true] at hPa
          first
          | exact hPa.1
          | exact hPa.2
  · intro k hk
    rw [hrs, List.mem_mergeSort] at hk
    obtain ⟨a, hla, hPa⟩ := bucket_lookup hfp hnd _ hk
    simp only [Bool.and_eq_true, Bool.not_eq_true'] at hPa
    rw [hm]
    exact ⟨a, hla, hPa.1, hPa.2⟩
  · intro k hk
    rw [hwn, List.mem_mergeSort] at hk
    obtain ⟨a, hla, hPa⟩ := bucket_lookup hfp hnd _ hk
    simp only [Bool.and_eq_true, Bool.not_eq_true'] at hPa
    rw [hm]
    exact ⟨a, hla, hPa.1, hPa.2⟩
  · intro k hk
    rw [hrn, List.mem_mergeSort] at hk
    obtain ⟨a, hla, hPa⟩ := bucket_lookup hfp hnd _ hk
    simp only [Bool.and_eq_true, Bool.not_eq_true'] at hPa
    rw [hm]
    exact ⟨a, hla, hPa.1, hPa.2⟩

theorem builderFor_fee_payer (fee_payer : Pubkey) (recent_blockhash : List Nat)
    (ixs : List Instruction) :
    (builderFor fee_payer recent_blockhash ixs).fee_payer = fee_payer := by
  rw [builderFor]
  have : ∀ (b : TransactionBuilder),
      (ixs.foldl TransactionBuilder.add_instruction b).fee_payer =
        b.fee_payer := by
    induction ixs with
    | nil => intro b; rfl
    | cons ix ixs ih =>
      intro b
      rw [List.foldl_cons, ih]
      rfl
  rw [this]
  rfl

/-- C3: for every fee payer, blockhash and instruction list (of at most 255
distinct accounts, the u8 header range), the compiled message has the fee
payer at index 0; the remaining keys are exactly the other accounts of the
final account map, partitioned in the fixed order writable signers, readonly
signers, writable non-signers, readonly non-signers, each bucket sorted by
the lexicographic Pubkey ordering; and the header counts are the partition
sizes: num_required_signatures is the number of signer keys (fee payer plus
both signer buckets), num_readonly_signed_accounts the number of readonly
signers, and num_readonly_unsigned_accounts the number of readonly
non-signers. -/
theorem builder_build_canonical_form (fee_payer : Pubkey)
    (recent_blockhash : List Nat) (ixs : List Instruction)
    (hsz : (builderFor fee_payer recent_blockhash ixs).account_metas.length
      ≤ 255) :
    ∃ ws rs wn rn,
      (builderFor fee_payer recent_blockhash ixs).build.message.account_keys =
        fee_payer :: (ws ++ rs ++ wn ++ rn) ∧
      (ws ++ rs ++ wn ++ rn).Perm
        (((builderFor fee_payer recent_blockhash ixs).account_metas.filter
          (fun e => e.1 ≠ fee_payer)).map Prod.fst) ∧
      List.Pairwise (fun x y => pubkeyLe x y = true) ws ∧
      List.Pairwise (fun x y => pubkeyLe x y = true) rs ∧
      List.Pairwise (fun x y => pubkeyLe x y = true) wn ∧
      List.Pairwise (fun x y => pubkeyLe x y = true) rn ∧
      (∀ k ∈ ws, ∃ a,
        (builderFor fee_payer recent_blockhash ixs).account_metas.lookup k =
          some a ∧ a.is_signer = true ∧ a.is_writable = true) ∧
      (∀ k ∈ rs, ∃ a,
        (builderFor fee_payer recent_blockhash ixs).account_metas.lookup k =
          some a ∧ a.is_signer = true ∧ a.is_writable = false) ∧
      (∀ k ∈ wn, ∃ a,
        (builderFor fee_payer recent_blockhash ixs).account_metas.lookup k =
          some a ∧ a.is_signer = false ∧ a.is_writable = true) ∧
      (∀ k ∈ rn, ∃ a,
        (builderFor fee_payer recent_blockhash ixs).account_metas.lookup k =
          some a ∧ a.is_signer = false ∧ a.is_writable = false) ∧
      (builderFor fee_payer recent_blockhash
        ixs).build.message.header.num_required_signatures =
        1 + ws.length + rs.length ∧
      (builderFor fee_payer recent_blockhash
        ixs).build.message.header.num_readonly_signed_accounts = rs.length ∧
      (builderFor fee_payer recent_blockhash
        ixs).build.message.header.num_readonly_unsigned_accounts =
        rn.length := by
  have hinv := builderFor_inv fee_payer recent_blockhash ixs
  have hfp := builderFor_fee_payer fee_payer recent_blockhash ixs
  obtain ⟨ws, rs, wn, rn, h1, h2, h3, h4, h5, h6, h7, h8, h9, h10, h11, h12,
    h13, _, _⟩ := build_spec _ hinv hsz
  rw [hfp] at h1 h2
  exact ⟨ws, rs, wn, rn, h1, h2, h3, h4, h5, h6, h7, h8, h9, h10, h11, h12,
    h13⟩

/-- Witness for builder_build_canonical_form: a fee payer plus one
instruction with a writable signer and a writable non-signer account. -/
theorem builder_build_canonical_form_witness :
    (builderFor (List.replicate 32 0) (List.replicate 32 1)
      [⟨List.replicate 32 9,
        [⟨List.replicate 32 2, true, true⟩,
          ⟨List.replicate 32 3, false, true⟩], [2, 0, 0, 0]⟩]).account_metas.length
      ≤ 255 ∧
    ∃ ws rs wn rn,
      (builderFor (List.replicate 32 0) (List.replicate 32 1)
        [⟨List.replicate 32 9,
          [⟨List.replicate 32 2, true, true⟩,
            ⟨List.replicate 32 3, false, true⟩],
          [2, 0, 0, 0]⟩]).build.message.account_keys =
        (List.replicate 32 0) :: (ws ++ rs ++ wn ++ rn) ∧
      (ws ++ rs ++ wn ++ rn).Perm
        (((builderFor (List.replicate 32 0) (List.replicate 32 1)
          [⟨List.replicate 32 9,
            [⟨List.replicate 32 2, true, true⟩,
              ⟨List.replicate 32 3, false, true⟩],
            [2, 0, 0, 0]⟩]).account_metas.filter
          (fun e => e.1 ≠ (List.replicate 32 0))).map Prod.fst) ∧
      List.Pairwise (fun x y => pubkeyLe x y = true) ws ∧
      List.Pairwise (fun x y => pubkeyLe x y = true) rs ∧
      List.Pairwise (fun x y => pubkeyLe x y = true) wn ∧
      List.Pairwise (fun x y => pubkeyLe x y = true) rn ∧
      (∀ k ∈ ws, ∃ a,
        (builderFor (List.replicate 32 0) (List.replicate 32 1)
          [⟨List.replicate 32 9,
            [⟨List.replicate 32 2, true, true⟩,
              ⟨List.replicate 32 3, false, true⟩],
            [2, 0, 0, 0]⟩]).account_metas.lookup k =
          some a ∧ a.is_signer = true ∧ a.is_writable = true) ∧
      (∀ k ∈ rs, ∃ a,
        (builderFor (List.replicate 32 0) (List.replicate 32 1)
          [⟨List.replicate 32 9,
            [⟨List.replicate 32 2, true, true⟩,
              ⟨List.replicate 32 3, false, true⟩],
            [2, 0, 0, 0]⟩]).account_metas.lookup k =
          some a ∧ a.is_signer = true ∧ a.is_writable = false) ∧
      (∀ k ∈ wn, ∃ a,
        (builderFor (List.replicate 32 0) (List.replicate 32 1)
          [⟨List.replicate 32 9,
            [⟨List.replicate 32 2, true, true⟩,
              ⟨List.replicate 32 3, false, true⟩],
            [2, 0, 0, 0]⟩]).account_metas.lookup k =
          some a ∧ a.is_signer = false ∧ a.is_writable = true) ∧
      (∀ k ∈ rn, ∃ a,
        (builderFor (List.replicate 32 0) (List.replicate 32 1)
          [⟨List.replicate 32 9,
            [⟨List.replicate 32 2, true, true⟩,
              ⟨List.replicate 32 3, false, true⟩],
            [2, 0, 0, 0]⟩]).account_metas.lookup k =
          some a ∧ a.is_signer = false ∧ a.is_writable = false) ∧
      (builderFor (List.replicate 32 0) (List.replicate 32 1)
        [⟨List.replicate 32 9,
          [⟨List.replicate 32 2, true, true⟩,
            ⟨List.replicate 32 3, false, true⟩],
          [2, 0, 0, 0]⟩]).build.message.header.num_required_signatures =
        1 + ws.length + rs.length ∧
      (builderFor (List.replicate 32 0) (List.replicate 32 1)
        [⟨List.replicate 32 9,
          [⟨List.replicate 32 2, true, true⟩,
            ⟨List.replicate 32 3, false, true⟩],
          [2, 0, 0, 0]⟩]).build.message.header.num_readonly_signed_accounts =
        rs.length ∧
      (builderFor (List.replicate 32 0) (List.replicate 32 1)
        [⟨List.replicate 32 9,
          [⟨List.replicate 32 2, true, true⟩,
            ⟨List.replicate 32 3, false, true⟩],
          [2, 0, 0, 0]⟩]).build.message.header.num_readonly_unsigned_accounts =
        rn.length :=
  ⟨by decide, builder_build_canonical_form _ _ _ (by decide)⟩

/-! ### Merge law (C7) -/

/-- The OR-merge applied to a stored meta by upsertMerge. -/
def orMerge (meta a : AccountMeta) : AccountMeta :=
  ⟨a.pubkey, a.is_signer || meta.is_signer, a.is_writable || meta.is_writable⟩

theorem lookup_append_single (m : List (Pubkey × AccountMeta)) (k p : Pubkey)
    (v : AccountMeta) :
    (m ++ [(p, v)]).lookup k =
      match m.lookup k with
      | some a => some a
      | none => if k = p then some v else none := by
  induction m with
  | nil =>
    by_cases h : k = p
    · simp [List.lookup, h]
    · simp [List.lookup, beq_false_of_ne h, h]
  | cons e m ih =>
    by_cases h : k = e.1
    · simp [List.lookup, h]
    · have hbeq : (k == e.1) = false := beq_false_of_ne h
      simp only [List.cons_append, List.lookup, hbeq, cond_false]
      exact ih

theorem lookup_map_keyfix (m : List (Pubkey × AccountMeta))
    (meta : AccountMeta) (k : Pubkey) :
    ((m.map (fun e =>
      if e.1 = meta.pubkey then (e.1, orMerge meta e.2) else e)).lookup k) =
      if k = meta.pubkey then (m.lookup k).map (orMerge meta)
      else m.lookup k := by
  induction m with
  | nil => by_cases h : k = meta.pubkey <;> simp [List.lookup, h]
  | cons e m ih =>
    rw [List.map_cons]
    by_cases he : e.1 = meta.pubkey
    · rw [if_pos he]
      by_cases hk : k = e.1
      · subst hk
        simp [List.lookup, he]
      · have hkm : k ≠ meta.pubkey := fun hc => hk (he ▸ hc)
        have hbeq : (k == e.1) = false := beq_false_of_ne hk
        simp only [List.lookup, hbeq, cond_false, ih, if_neg hkm]
    · rw [if_neg he]
      by_cases hk : k = e.1
      · subst hk
        simp [List.lookup, he]
      · have hbeq : (k == e.1) = false := beq_false_of_ne hk
        simp only [List.lookup, hbeq, cond_false, ih]

/-- Full characterization of a lookup after an OR-merge upsert. -/
theorem upsertMerge_lookup (m : List (Pubkey × AccountMeta))
    (meta : AccountMeta) (k : Pubkey) :
    (upsertMerge m meta).lookup k =
      if k = meta.pubkey then
        match m.lookup k with
        | some a => some (orMerge meta a)
        | none => some meta
      else m.lookup k := by
  rw [upsertMerge]
  by_cases hs : (m.lookup meta.pubkey).isSome
  · rw [if_pos hs]
    have := lookup_map_keyfix m meta k
    rw [show (fun e : Pubkey × AccountMeta =>
        if e.1 = meta.pubkey then
          (e.1, (⟨e.2.pubkey, e.2.is_signer || meta.is_signer,
            e.2.is_writable || meta.is_writable⟩ : AccountMeta))
        else e) = (fun e : Pubkey × AccountMeta =>
        if e.1 = meta.pubkey then (e.1, orMerge meta e.2) else e) from rfl,
      this]
    by_cases hk : k = meta.pubkey
    · subst hk
      obtain ⟨a, ha⟩ := Option.isSome_iff_exists.mp hs
      simp [ha]
    · simp [hk]
  · rw [if_neg hs, lookup_append_single]
    by_cases hk : k = meta.pubkey
    · subst hk
      have hnone : m.lookup meta.pubkey = none :=
        Option.not_isSome_iff_eq_none.mp hs
      simp [hnone]
    · cases h : m.lookup k <;> simp [hk, h]

theorem insertIfAbsent_lookup_isSome {m : List (Pubkey × AccountMeta)}
    {k : Pubkey} (h : (m.lookup k).isSome) (p : Pubkey) (v : AccountMeta) :
    (insertIfAbsent m p v).lookup k = m.lookup k := by
  rw [insertIfAbsent]
  by_cases hp : (m.lookup p).isSome
  · rw [if_pos hp]
  · rw [if_neg hp, lookup_append_single]
    obtain ⟨a, ha⟩ := Option.isSome_iff_exists.mp h
    simp [ha]

/-- Flag membership survives any upsert and is established by an upsert of a
meta carrying the flag, for either flag selector. -/
def flagTrue (sel : AccountMeta → Bool) (m : List (Pubkey × AccountMeta))
    (k : Pubkey) : Prop :=
  ∃ a, m.lookup k = some a ∧ sel a = true

theorem flagTrue_upsert_mono {sel : AccountMeta → Bool}
    (hsel : ∀ meta a, sel (orMerge meta a) = (sel a || sel meta))
    {m : List (Pubkey × AccountMeta)} {k : Pubkey}
    (h : flagTrue sel m k) (meta : AccountMeta) :
    flagTrue sel (upsertMerge m meta) k := by
  obtain ⟨a, ha, hflag⟩ := h
  rw [flagTrue]
  rw [upsertMerge_lookup]
  by_cases hk : k = meta.pubkey
  · rw [if_pos hk, ha]
    exact ⟨orMerge meta a, rfl, by rw [hsel, hflag, Bool.true_or]⟩
  · rw [if_neg hk]
    exact ⟨a, ha, hflag⟩

theorem flagTrue_upsert_est {sel : AccountMeta → Bool}
    (hsel : ∀ meta a, sel (orMerge meta a) = (sel a || sel meta))
    (m : List (Pubkey × AccountMeta)) {k : Pubkey} {meta : AccountMeta}
    (hk : meta.pubkey = k) (hflag : sel meta = true) :
    flagTrue sel (upsertMerge m meta) k := by
  rw [flagTrue, upsertMerge_lookup, if_pos hk.symm]
  cases h : m.lookup k with
  | none => exact ⟨meta, rfl, hflag⟩
  | some a => exact ⟨orMerge meta a, rfl, by rw [hsel, hflag, Bool.or_true]⟩

theorem flagTrue_foldl_mono {sel : AccountMeta → Bool}
    (hsel : ∀ meta a, sel (orMerge meta a) = (sel a || sel meta))
    (metas : List AccountMeta) {m : List (Pubkey × AccountMeta)} {k : Pubkey}
    (h : flagTrue sel m k) :
    flagTrue sel (metas.foldl (fun m meta => upsertMerge m meta) m) k := by
  induction metas generalizing m with
  | nil => exact h
  | cons meta metas ih => exact ih (flagTrue_upsert_mono hsel h meta)

theorem flagTrue_foldl_est {sel : AccountMeta → Bool}
    (hsel : ∀ meta a, sel (orMerge meta a) = (sel a || sel meta))
    (metas : List AccountMeta) {m : List (Pubkey × AccountMeta)} {k : Pubkey}
    {a : AccountMeta} (hmem : a ∈ metas) (hk : a.pubkey = k)
    (hflag : sel a = true) :
    flagTrue sel (metas.foldl (fun m meta => upsertMerge m meta) m) k := by
  induction metas generalizing m with
  | nil => simp at hmem
  | cons meta metas ih =>
    rcases List.mem_cons.mp hmem with h | h
    · subst h
      exact flagTrue_foldl_mono hsel metas (flagTrue_upsert_est hsel m hk hflag)
    · exact ih h

theorem flagTrue_isSome {sel : AccountMeta → Bool}
    {m : List (Pubkey × AccountMeta)} {k : Pubkey}
    (h : flagTrue sel m k) : (m.lookup k).isSome := by
  obtain ⟨a, ha, _⟩ := h
  rw [ha]
  rfl

theorem flagTrue_add_mono {sel : AccountMeta → Bool}
    (hsel : ∀ meta a, sel (orMerge meta a) = (sel a || sel meta))
    {b : TransactionBuilder} {k : Pubkey}
    (h : flagTrue sel b.account_metas k) (ix : Instruction) :
    flagTrue sel (b.add_instruction ix).account_metas k := by
  rw [TransactionBuilder.add_instruction]
  refine flagTrue_foldl_mono hsel _ ?_
  obtain ⟨a, ha, hflag⟩ := h
  exact ⟨a, by rw [insertIfAbsent_lookup_isSome (by rw [ha]; rfl)]; exact ha,
    hflag⟩

theorem flagTrue_add_est {sel : AccountMeta → Bool}
    (hsel : ∀ meta a, sel (orMerge meta a) = (sel a || sel meta))
    (b : TransactionBuilder) {k : Pubkey} {ix : Instruction}
    {a : AccountMeta} (hmem : a ∈ ix.accounts) (hk : a.pubkey = k)
    (hflag : sel a = true) :
    flagTrue sel (b.add_instruction ix).account_metas k := by
  rw [TransactionBuilder.add_instruction]
  exact flagTrue_foldl_est hsel _ hmem hk hflag

theorem flagTrue_foldl_add_mono {sel : AccountMeta → Bool}
    (hsel : ∀ meta a, sel (orMerge meta a) = (sel a || sel meta))
    (ixs : List Instruction) {b : TransactionBuilder} {k : Pubkey}
    (h : flagTrue sel b.account_metas k) :
    flagTrue sel
      ((ixs.foldl TransactionBuilder.add_instruction b)).account_metas k := by
  induction ixs generalizing b with
  | nil => exact h
  | cons ix ixs ih => exact ih (flagTrue_add_mono hsel h ix)

theorem flagTrue_builderFor {sel : AccountMeta → Bool}
    (hsel : ∀ meta a, sel (orMerge meta a) = (sel a || sel meta))
    (fee_payer : Pubkey) (recent_blockhash : List Nat)
    (ixs : List Instruction) {k : Pubkey} {ix : Instruction}
    {a : AccountMeta} (hix : ix ∈ ixs) (hmem : a ∈ ix.accounts)
    (hk : a.pubkey = k) (hflag : sel a = true) :
    flagTrue sel (builderFor fee_payer recent_blockhash ixs).account_metas k := by
  rw [builderFor]
  generalize TransactionBuilder.new fee_payer recent_blockhash = b
  induction ixs generalizing b with
  | nil => simp at hix
  | cons ix' ixs ih =>
    rw [List.foldl_cons]
    rcases List.mem_cons.mp hix with h | h
    · subst h
      exact flagTrue_foldl_add_mono hsel ixs
        (flagTrue_add_est hsel b hmem hk hflag)
    · exact ih h _

theorem indexOf_cons_self_bx {α : Type} [BEq α] [LawfulBEq α] (a : α)
    (l : List α) : (a :: l).indexOf a = 0 := by
  simp [List.indexOf_cons]

theorem indexOf_cons_ne_bx {α : Type} [BEq α] [LawfulBEq α] {a b : α}
    (h : b ≠ a) (l : List α) : (b :: l).indexOf a = l.indexOf a + 1 := by
  simp [List.indexOf_cons, beq_false_of_ne h]

theorem indexOf_lt_length_bx {α : Type} [BEq α] [LawfulBEq α] {a : α}
    {l : List α} (h : a ∈ l) : l.indexOf a < l.length := by
  unfold List.indexOf
  exact List.findIdx_lt_length.mpr ⟨a, h, by simp⟩

theorem indexOf_append_left_bx {α : Type} [BEq α] [LawfulBEq α] {a : α}
    {l₁ : List α} (l₂ : List α) (h : a ∈ l₁) :
    (l₁ ++ l₂).indexOf a = l₁.indexOf a := by
  have hlt := indexOf_lt_length_bx h
  unfold List.indexOf at hlt ⊢
  rw [List.findIdx_append, if_pos hlt]

/-- C7: if an address appears with is_signer = true in any instruction's
AccountMeta, it is classified as a signer in the built message: its merged
flags carry is_signer, and its position in account_keys lies inside the
signer region counted by num_required_signatures.  Likewise an address
marked writable in any instruction has is_writable in the merged flags:
flags merge by logical OR across all instructions. -/
theorem builder_merge_law (fee_payer : Pubkey) (recent_blockhash : List Nat)
    (ixs : List Instruction) (k : Pubkey)
    (hsz : (builderFor fee_payer recent_blockhash ixs).account_metas.length
      ≤ 255) :
    ((∃ ix ∈ ixs, ∃ a ∈ ix.accounts, a.pubkey = k ∧ a.is_signer = true) →
      (∃ m, (builderFor fee_payer recent_blockhash ixs).account_metas.lookup k
        = some m ∧ m.is_signer = true) ∧
      (builderFor fee_payer recent_blockhash
        ixs).build.message.account_keys.indexOf k <
      (builderFor fee_payer recent_blockhash
        ixs).build.message.header.num_required_signatures) ∧
    ((∃ ix ∈ ixs, ∃ a ∈ ix.accounts, a.pubkey = k ∧ a.is_writable = true) →
      ∃ m, (builderFor fee_payer recent_blockhash ixs).account_metas.lookup k
        = some m ∧ m.is_writable = true) := by
  have hinv := builderFor_inv fee_payer recent_blockhash ixs
  have hfp := builderFor_fee_payer fee_payer recent_blockhash ixs
  obtain ⟨ws, rs, wn, rn, h1, h2, _, _, _, _, h7, h8, h9, h10, h11, _, _,
    hfpL, hndL⟩ := build_spec _ hinv hsz
  rw [hfp] at h1 h2 hfpL
  constructor
  · rintro ⟨ix, hix, a, hmem, hk, hflag⟩
    have hsig : flagTrue AccountMeta.is_signer
        (builderFor fee_payer recent_blockhash ixs).account_metas k :=
      flagTrue_builderFor (fun _ _ => rfl) fee_payer recent_blockhash ixs
        hix hmem hk hflag
    obtain ⟨m, hl, hms⟩ := hsig
    refine ⟨⟨m, hl, hms⟩, ?_⟩
    by_cases hkfp : k = fee_payer
    · subst hkfp
      rw [h1, h11, indexOf_cons_self_bx]
      omega
    · -- k is some non-fee-payer key with the signer flag
      have hkin : k ∈ ws ++ rs ++ wn ++ rn := by
        obtain ⟨e, he, hke⟩ :=
          List.mem_map.mp (lookup_isSome_iff.mp (by rw [hl]; rfl))
        refine h2.mem_iff.mpr (List.mem_map.mpr ⟨e, List.mem_filter.mpr
          ⟨he, ?_⟩, hke⟩)
        simp only [ne_eq, decide_eq_true_eq]
        rw [hke]
        exact hkfp
    -- k cannot be in the non-signer buckets
      have hknot : k ∈ ws ++ rs := by
        rcases List.mem_append.mp hkin with h | h
        · rcases List.mem_append.mp h with h' | h'
          · exact h'
          · obtain ⟨a', hl', ha', _⟩ := h9 k h'
            rw [hl] at hl'
            cases hl'
            rw [hms] at ha'
            exact absurd ha' (by simp)
        · obtain ⟨a', hl', ha', _⟩ := h10 k h
          rw [hl] at hl'
          cases hl'
          rw [hms] at ha'
          exact absurd ha' (by simp)
      rw [h1, h11]
      rw [indexOf_cons_ne_bx (Ne.symm hkfp)]
      have hmem2 : k ∈ ws ++ rs ++ wn := List.mem_append.mpr (.inl hknot)
      rw [indexOf_append_left_bx _ hmem2, indexOf_append_left_bx _ hknot]
      have := indexOf_lt_length_bx hknot
      rw [List.length_append] at this
      omega
  · rintro ⟨ix, hix, a, hmem, hk, hflag⟩
    have hwr : flagTrue AccountMeta.is_writable
        (builderFor fee_payer recent_blockhash ixs).account_metas k :=
      flagTrue_builderFor (fun _ _ => rfl) fee_payer recent_blockhash ixs
        hix hmem hk hflag
    exact hwr

/-- Witness for builder_merge_law: the signer account of a one-instruction
build lands in the signer region with both merged flags. -/
theorem builder_merge_law_witness :
    ((builderFor (List.replicate 32 0) (List.replicate 32 1)
      [⟨List.replicate 32 9, [⟨List.replicate 32 2, true, true⟩],
        [1]⟩]).account_metas.length ≤ 255) ∧
    (((∃ ix ∈ [(⟨List.replicate 32 9, [⟨List.replicate 32 2, true, true⟩],
        [1]⟩ : Instruction)], ∃ a ∈ ix.accounts,
        a.pubkey = List.replicate 32 2 ∧ a.is_signer = true) →
      (∃ m, (builderFor (List.replicate 32 0) (List.replicate 32 1)
        [⟨List.replicate 32 9, [⟨List.replicate 32 2, true, true⟩],
          [1]⟩]).account_metas.lookup (List.replicate 32 2)
        = some m ∧ m.is_signer = true) ∧
      (builderFor (List.replicate 32 0) (List.replicate 32 1)
        [⟨List.replicate 32 9, [⟨List.replicate 32 2, true, true⟩],
          [1]⟩]).build.message.account_keys.indexOf (List.replicate 32 2) <
      (builderFor (List.replicate 32 0) (List.replicate 32 1)
        [⟨List.replicate 32 9, [⟨List.replicate 32 2, true, true⟩],
          [1]⟩]).build.message.header.num_required_signatures) ∧
    ((∃ ix ∈ [(⟨List.replicate 32 9, [⟨List.replicate 32 2, true, true⟩],
        [1]⟩ : Instruction)], ∃ a ∈ ix.accounts,
        a.pubkey = List.replicate 32 2 ∧ a.is_writable = true) →
      ∃ m, (builderFor (List.replicate 32 0) (List.replicate 32 1)
        [⟨List.replicate 32 9, [⟨List.replicate 32 2, true, true⟩],
          [1]⟩]).account_metas.lookup (List.replicate 32 2)
        = some m ∧ m.is_writable = true)) :=
  ⟨by decide, builder_merge_law _ _ _ _ (by decide)⟩

/-- Whether the final account map records the key as writable. -/
def writableIn (m : List (Pubkey × AccountMeta)) (k : Pubkey) : Bool :=
  match m.lookup k with
  | some a => a.is_writable
  | none => false

/-- C8 (amended): for every compiled message,
num_required_signatures - num_readonly_signed_accounts
+ (number of account keys - num_required_signatures -
num_readonly_unsigned_accounts) equals the number of writable keys in the
account-key table.  (The claim's formula, which omits subtracting
num_readonly_signed_accounts, fails as soon as a readonly signer exists; see
the counterexample.) -/
theorem builder_header_coherence (fee_payer : Pubkey)
    (recent_blockhash : List Nat) (ixs : List Instruction)
    (hsz : (builderFor fee_payer recent_blockhash ixs).account_metas.length
      ≤ 255) :
    (builderFor fee_payer recent_blockhash
        ixs).build.message.header.num_required_signatures -
      (builderFor fee_payer recent_blockhash
        ixs).build.message.header.num_readonly_signed_accounts +
      ((builderFor fee_payer recent_blockhash
          ixs).build.message.account_keys.length -
        (builderFor fee_payer recent_blockhash
          ixs).build.message.header.num_required_signatures -
        (builderFor fee_payer recent_blockhash
          ixs).build.message.header.num_readonly_unsigned_accounts) =
      ((builderFor fee_payer recent_blockhash
        ixs).build.message.account_keys.filter
        (fun k => writableIn
          (builderFor fee_payer recent_blockhash ixs).account_metas k)).length
    := by
  have hinv := builderFor_inv fee_payer recent_blockhash ixs
  have hfp := builderFor_fee_payer fee_payer recent_blockhash ixs
  obtain ⟨ws, rs, wn, rn, h1, h2, _, _, _, _, h7, h8, h9, h10, h11, h12, h13,
    hfpL, hndL⟩ := build_spec _ hinv hsz
  rw [hfp] at h1 h2 hfpL
  obtain ⟨rest, hm, hrfp, hnd⟩ := hinv
  rw [hfp] at hm
  have hlfp : (builderFor fee_payer recent_blockhash
      ixs).account_metas.lookup fee_payer =
      some ⟨fee_payer, true, true⟩ := by
    rw [hm]
    simp [List.lookup]
  have hwfp : writableIn
      (builderFor fee_payer recent_blockhash ixs).account_metas fee_payer =
      true := by
    simp [writableIn, hlfp]
  have hws : ∀ k ∈ ws, writableIn
      (builderFor fee_payer recent_blockhash ixs).account_metas k = true := by
    intro k hk
    obtain ⟨a, hl, _, hw⟩ := h7 k hk
    simp [writableIn, hl, hw]
  have hwn : ∀ k ∈ wn, writableIn
      (builderFor fee_payer recent_blockhash ixs).account_metas k = true := by
    intro k hk
    obtain ⟨a, hl, _, hw⟩ := h9 k hk
    simp [writableIn, hl, hw]
  have hrs : ∀ k ∈ rs, ¬ (writableIn
      (builderFor fee_payer recent_blockhash ixs).account_metas k = true) := by
    intro k hk
    obtain ⟨a, hl, _, hw⟩ := h8 k hk
    simp [writableIn, hl, hw]
  have hrn : ∀ k ∈ rn, ¬ (writableIn
      (builderFor fee_payer recent_blockhash ixs).account_metas k = true) := by
    intro k hk
    obtain ⟨a, hl, _, hw⟩ := h10 k hk
    simp [writableIn, hl, hw]
  rw [h1, h11, h12, h13, List.filter_cons, if_pos hwfp,
    List.filter_append, List.filter_append, List.filter_append,
    List.filter_eq_self.mpr hws, List.filter_eq_self.mpr hwn,
    List.filter_eq_nil_iff.mpr hrs, List.filter_eq_nil_iff.mpr hrn]
  simp only [List.length_cons, List.length_append, List.length_nil]
  omega

/-- Witness for builder_header_coherence at a one-instruction build with a
readonly signer. -/
theorem builder_header_coherence_witness :
    ((builderFor (List.replicate 32 0) (List.replicate 32 4)
      [⟨List.replicate 32 1, [⟨List.replicate 32 2, true, false⟩],
        []⟩]).account_metas.length ≤ 255) ∧
    (builderFor (List.replicate 32 0) (List.replicate 32 4)
        [⟨List.replicate 32 1, [⟨List.replicate 32 2, true, false⟩],
          []⟩]).build.message.header.num_required_signatures -
      (builderFor (List.replicate 32 0) (List.replicate 32 4)
        [⟨List.replicate 32 1, [⟨List.replicate 32 2, true, false⟩],
          []⟩]).build.message.header.num_readonly_signed_accounts +
      ((builderFor (List.replicate 32 0) (List.replicate 32 4)
          [⟨List.replicate 32 1, [⟨List.replicate 32 2, true, false⟩],
            []⟩]).build.message.account_keys.length -
        (builderFor (List.replicate 32 0) (List.replicate 32 4)
          [⟨List.replicate 32 1, [⟨List.replicate 32 2, true, false⟩],
            []⟩]).build.message.header.num_required_signatures -
        (builderFor (List.replicate 32 0) (List.replicate 32 4)
          [⟨List.replicate 32 1, [⟨List.replicate 32 2, true, false⟩],
            []⟩]).build.message.header.num_readonly_unsigned_accounts) =
      ((builderFor (List.replicate 32 0) (List.replicate 32 4)
        [⟨List.replicate 32 1, [⟨List.replicate 32 2, true, false⟩],
          []⟩]).build.message.account_keys.filter
        (fun k => writableIn
          (builderFor (List.replicate 32 0) (List.replicate 32 4)
            [⟨List.replicate 32 1, [⟨List.replicate 32 2, true, false⟩],
              []⟩]).account_metas k)).length :=
  ⟨by decide, builder_header_coherence _ _ _ (by decide)⟩

unseal List.mergeSort List.merge in
/-- C8 counterexample: with one readonly-signer account the claim's formula
fails: the build has header (2, 1, 1) over three keys, so
num_required_signatures + (n_keys - num_required_signatures -
num_readonly_unsigned_accounts) = 2, while only the fee payer is writable
(one writable key). -/
theorem builder_header_coherence_counterexample :
    ¬ ((builderFor (List.replicate 32 0) (List.replicate 32 4)
        [⟨List.replicate 32 1, [⟨List.replicate 32 2, true, false⟩],
          []⟩]).build.message.header.num_required_signatures +
      ((builderFor (List.replicate 32 0) (List.replicate 32 4)
          [⟨List.replicate 32 1, [⟨List.replicate 32 2, true, false⟩],
            []⟩]).build.message.account_keys.length -
        (builderFor (List.replicate 32 0) (List.replicate 32 4)
          [⟨List.replicate 32 1, [⟨List.replicate 32 2, true, false⟩],
            []⟩]).build.message.header.num_required_signatures -
        (builderFor (List.replicate 32 0) (List.replicate 32 4)
          [⟨List.replicate 32 1, [⟨List.replicate 32 2, true, false⟩],
            []⟩]).build.message.header.num_readonly_unsigned_accounts) =
      ((builderFor (List.replicate 32 0) (List.replicate 32 4)
        [⟨List.replicate 32 1, [⟨List.replicate 32 2, true, false⟩],
          []⟩]).build.message.account_keys.filter
        (fun k => writableIn
          (builderFor (List.replicate 32 0) (List.replicate 32 4)
            [⟨List.replicate 32 1, [⟨List.replicate 32 2, true, false⟩],
              []⟩]).account_metas k)).length) := by
  decide

/-! ### PDA derivation (types/pda.rs)

SHA-256 and Ed25519 point decompression are external library primitives
(sha2::Sha256, ed25519_dalek::VerifyingKey::from_bytes); the embedding takes
them as function parameters hashF and decomp.  The incremental hasher
updates of the source amount to hashing the concatenation of the fed
slices. -/

/-- Maximum number of seeds allowed in a PDA (types/pda.rs, line 7). -/
def MAX_SEEDS : Nat := 16

/-- Maximum length of a seed in bytes (types/pda.rs, line 9). -/
def MAX_SEED_LEN : Nat := 32

/-- The domain separator b"ProgramDerivedAddress" (types/pda.rs, line 48). -/
def pdaMarker : List Nat :=
  [80, 114, 111, 103, 114, 97, 109, 68, 101, 114, 105, 118, 101, 100,
    65, 100, 100, 114, 101, 115, 115]

/-- The byte string fed to SHA-256 for one candidate: all seeds, the bump
byte, the program id, and the domain separator. -/
def pdaHashInput (seeds : List (List Nat)) (bump : Nat)
    (program_id : List Nat) : List Nat :=
  seeds.flatten ++ [bump] ++ program_id ++ pdaMarker

/-- is_on_curve (types/pda.rs, lines 130-137): an all-zero input returns
false before the decompression primitive is consulted; otherwise the result
is whether decompression succeeds. -/
def is_on_curve (decomp : List Nat → Bool) (bytes : List Nat) : Bool :=
  if bytes.all (· == 0) then false else decomp bytes

/-- create_program_address (types/pda.rs, lines 73-127): validate the seed
count and lengths, hash, and reject a candidate the is_on_curve test
accepts. -/
def create_program_address (hashF : List Nat → List Nat)
    (decomp : List Nat → Bool) (program_id : List Nat)
    (seeds : List (List Nat)) (bump_seed : Nat) : Except String (List Nat) :=
  if seeds.length > MAX_SEEDS then .error "too many seeds"
  else if seeds.any (fun s => s.length > MAX_SEED_LEN) then
    .error "seed too long"
  else
    let pubkey_bytes := hashF (pdaHashInput seeds bump_seed program_id)
    if is_on_curve decomp pubkey_bytes then
      .error "resulting address is on curve (invalid PDA)"
    else .ok pubkey_bytes

/-- The bump-descent loop of find_program_address (types/pda.rs, lines
32-69), running from the given bump down to zero. -/
def findLoop (hashF : List Nat → List Nat) (decomp : List Nat → Bool)
    (program_id : List Nat) (seeds : List (List Nat)) :
    Nat → Except String (List Nat × Nat)
  | 0 =>
    let pubkey_bytes := hashF (pdaHashInput seeds 0 program_id)
    if ¬ is_on_curve decomp pubkey_bytes then .ok (pubkey_bytes, 0)
    else .error "unable to find valid PDA, all bump seeds exhausted"
  | bump + 1 =>
    let pubkey_bytes := hashF (pdaHashInput seeds (bump + 1) program_id)
    if ¬ is_on_curve decomp pubkey_bytes then .ok (pubkey_bytes, bump + 1)
    else findLoop hashF decomp program_id seeds bump

/-- find_program_address (types/pda.rs, lines 12-70): validate the seeds,
then try bumps from 255 downward until a candidate passes the off-curve
test. -/
def find_program_address (hashF : List Nat → List Nat)
    (decomp : List Nat → Bool) (program_id : List Nat)
    (seeds : List (List Nat)) : Except String (List Nat × Nat) :=
  if seeds.length > MAX_SEEDS then .error "too many seeds"
  else if seeds.any (fun s => s.length > MAX_SEED_LEN) then
    .error "seed too long"
  else findLoop hashF decomp program_id seeds 255

theorem findLoop_spec {hashF : List Nat → List Nat}
    {decomp : List Nat → Bool} {program_id : List Nat}
    {seeds : List (List Nat)} {addr : List Nat} {bump : Nat} (n : Nat)
    (h : findLoop hashF decomp program_id seeds n = .ok (addr, bump)) :
    addr = hashF (pdaHashInput seeds bump program_id) ∧
      is_on_curve decomp addr = false := by
  induction n with
  | zero =>
    rw [findLoop] at h
    by_cases hc : is_on_curve decomp (hashF (pdaHashInput seeds 0 program_id))
      = false
    · rw [if_pos (by simp [hc])] at h
      cases h
      exact ⟨rfl, hc⟩
    · rw [if_neg (by simpa using hc)] at h
      cases h
  | succ n ih =>
    rw [findLoop] at h
    by_cases hc : is_on_curve decomp
        (hashF (pdaHashInput seeds (n + 1) program_id)) = false
    · rw [if_pos (by simp [hc])] at h
      cases h
      exact ⟨rfl, hc⟩
    · rw [if_neg (by simpa using hc)] at h
      exact ih h

/-- C4 (amended): for every seed list of at most 16 seeds, each at most 32
bytes, if find_program_address returns (addr, bump) then addr fails the
library's is_on_curve test (addr is all-zero or fails Ed25519 point
decompression), and create_program_address with the same seeds and the
returned bump (whose byte the hash appends after the seeds) returns exactly
addr.  The claim's stronger reading, that addr always fails point
decompression itself, is refuted by the counterexample: an all-zero digest
is returned as a PDA even when it decompresses. -/
theorem find_create_program_address_roundtrip
    (hashF : List Nat → List Nat) (decomp : List Nat → Bool)
    (program_id : List Nat) (seeds : List (List Nat)) (addr : List Nat)
    (bump : Nat)
    (h : find_program_address hashF decomp program_id seeds =
      .ok (addr, bump)) :
    is_on_curve decomp addr = false ∧
      create_program_address hashF decomp program_id seeds bump = .ok addr := by
  rw [find_program_address] at h
  by_cases h1 : seeds.length > MAX_SEEDS
  · rw [if_pos h1] at h
    cases h
  · rw [if_neg h1] at h
    by_cases h2 : seeds.any (fun s => s.length > MAX_SEED_LEN) = true
    · rw [if_pos h2] at h
      cases h
    · rw [if_neg h2] at h
      obtain ⟨haddr, hoff⟩ := findLoop_spec 255 h
      refine ⟨hoff, ?_⟩
      rw [create_program_address, if_neg h1, if_neg h2]
      rw [haddr] at hoff ⊢
      simp [hoff]

/-- Witness for find_create_program_address_roundtrip with a hash model
that always yields an off-curve candidate. -/
theorem find_create_program_address_roundtrip_witness :
    find_program_address (fun _ => List.replicate 32 7) (fun _ => false)
      (List.replicate 32 3) [[1]] = .ok (List.replicate 32 7, 255) ∧
    (is_on_curve (fun _ => false) (List.replicate 32 7) = false ∧
      create_program_address (fun _ => List.replicate 32 7) (fun _ => false)
        (List.replicate 32 3) [[1]] 255 = .ok (List.replicate 32 7)) :=
  ⟨by decide, find_create_program_address_roundtrip _ _ _ _ _ _ (by decide)⟩

/-- C4 counterexample: when the digest is all zero and decompression would
succeed on it, find_program_address still returns it as the PDA, so the
returned bytes do not fail Ed25519 point decompression as the claim states:
the code's off-curve test short-circuits the all-zero digest to off-curve
without consulting decompression. -/
theorem find_program_address_decompress_counterexample :
    find_program_address (fun _ => List.replicate 32 0) (fun _ => true)
      (List.replicate 32 3) [[1]] = .ok (List.replicate 32 0, 255) ∧
    (fun (_ : List Nat) => true) (List.replicate 32 0) = true := by
  constructor <;> decide

/-- C9 (amended): the library treats an all-zero candidate digest as
off-curve and accepts it: when the hash of the seeds, bump, program id and
marker is the all-zero 32-byte string, create_program_address returns it as
a valid PDA rather than rejecting it, whatever the decompression primitive
would say; is_on_curve returns false on all-zero input unconditionally. -/
theorem create_program_address_accepts_zero
    (hashF : List Nat → List Nat) (decomp : List Nat → Bool)
    (program_id : List Nat) (seeds : List (List Nat)) (bump : Nat)
    (h1 : ¬ seeds.length > MAX_SEEDS)
    (h2 : ¬ seeds.any (fun s => s.length > MAX_SEED_LEN) = true)
    (hz : hashF (pdaHashInput seeds bump program_id) = List.replicate 32 0) :
    create_program_address hashF decomp program_id seeds bump =
      .ok (List.replicate 32 0) ∧
      is_on_curve decomp (List.replicate 32 0) = false := by
  have hzero : is_on_curve decomp (List.replicate 32 0) = false := by
    rw [is_on_curve, if_pos (by decide)]
  refine ⟨?_, hzero⟩
  rw [create_program_address, if_neg h1, if_neg h2, hz, if_neg (by
    rw [hzero]
    simp)]

/-- Witness for create_program_address_accepts_zero with a constant-zero
hash model. -/
theorem create_program_address_accepts_zero_witness :
    ¬ ([[1]] : List (List Nat)).length > MAX_SEEDS ∧
    ¬ ([[1]] : List (List Nat)).any (fun s => s.length > MAX_SEED_LEN) = true ∧
    (create_program_address (fun _ => List.replicate 32 0) (fun _ => true)
      (List.replicate 32 3) [[1]] 254 = .ok (List.replicate 32 0) ∧
      is_on_curve (fun _ => true) (List.replicate 32 0) = false) :=
  ⟨by decide, by decide,
    create_program_address_accepts_zero _ _ _ _ _ (by decide) (by decide) rfl⟩

/-- C9 counterexample: with an all-zero digest, create_program_address
returns Ok rather than the rejection the claim requires, even under a
decompression primitive that succeeds on every input. -/
theorem create_program_address_zero_counterexample :
    create_program_address (fun _ => List.replicate 32 0) (fun _ => true)
      (List.replicate 32 3) [[1]] 255 = .ok (List.replicate 32 0) := by
  decide

/-! ### Signing and verification (types/transaction.rs, crypto/mod.rs)

Ed25519 is an external library (ed25519_dalek); the embedding takes the
primitives as parameters: edSign sk msg produces the 64-byte signature,
edPub sk the public key of a secret key, edParse whether
VerifyingKey::from_bytes succeeds on 32 bytes, and edVerify pk msg sig the
verification result. -/

/-- A u32 in little-endian bytes, as borsh writes collection lengths. -/
def u32le (n : Nat) : List Nat :=
  [n % 256, n / 256 % 256, n / 65536 % 256, n / 16777216 % 256]

/-- Borsh serialization of a CompiledInstruction (derived BorshSerialize:
fields in order, Vec with u32 LE length). -/
def borshIx (ix : CompiledInstruction) : List Nat :=
  [ix.program_id_index] ++ u32le ix.accounts.length ++ ix.accounts ++
    u32le ix.data.length ++ ix.data

/-- Borsh serialization of a Message, the byte string verify_transaction
checks signatures against (crypto/mod.rs, line 47: borsh::to_vec of the
message).  Derived BorshSerialize: three header u8s, u32-LE-prefixed key
vector of raw 32-byte keys, raw 32-byte blockhash, u32-LE-prefixed
instruction vector. -/
def borshMessageBytes (m : Message) : List Nat :=
  [m.header.num_required_signatures, m.header.num_readonly_signed_accounts,
    m.header.num_readonly_unsigned_accounts]
    ++ u32le m.account_keys.length ++ m.account_keys.flatten
    ++ m.recent_blockhash
    ++ u32le m.instructions.length ++ (m.instructions.map borshIx).flatten

/-- sign_message (crypto/mod.rs, lines 81-94): a 32-byte secret key always
yields a signing key; other lengths are rejected. -/
def sign_message (edSign : List Nat → List Nat → List Nat)
    (private_key msg : List Nat) : Except String SignatureBytes :=
  if private_key.length ≠ 32 then
    .error "invalid private key length"
  else .ok (edSign private_key msg)

/-- The signing loop of Transaction::sign (types/transaction.rs, lines
177-180): sign with each key in turn, pushing each signature; a bad key
aborts mid-way leaving the signatures pushed so far. -/
def signLoop (edSign : List Nat → List Nat → List Nat) (msg : List Nat) :
    List (List Nat) → Transaction → Except String Unit × Transaction
  | [], tx => (.ok (), tx)
  | k :: ks, tx =>
    match sign_message edSign k msg with
    | .error e => (.error e, tx)
    | .ok s =>
      signLoop edSign msg ks { tx with signatures := tx.signatures ++ [s] }

/-- Transaction::sign (types/transaction.rs, lines 154-183): serialize the
message, clear the existing signatures, then fail if fewer keys than
num_required_signatures were given, else sign with the first
num_required_signatures keys.  Returns the result together with the final
transaction state. -/
def Transaction.sign (edSign : List Nat → List Nat → List Nat)
    (tx : Transaction) (private_keys : List (List Nat)) :
    Except String Unit × Transaction :=
  match tx.message.serialize_for_signing with
  | .error e => (.error e, tx)
  | .ok message_bytes =>
    let tx := { tx with signatures := [] }
    let num := tx.message.header.num_required_signatures
    if private_keys.length < num then
      (.error "insufficient private keys", tx)
    else
      signLoop edSign message_bytes (private_keys.take num) tx

/-- The verification loop of verify_transaction (crypto/mod.rs, lines
50-75): for each signature, index the account key at the same position
(Rust indexing panics past the end), rebuild the verifying key, check the
signature length, then verify against the borsh message bytes. -/
def verifyLoop (edParse : List Nat → Bool)
    (edVerify : List Nat → List Nat → List Nat → Bool) (msg : List Nat)
    (keys : List Pubkey) : List SignatureBytes → Nat → Except String Unit
  | [], _ => .ok ()
  | sig :: rest, i =>
    match keys[i]? with
    | none => .error "panic: index out of bounds"
    | some pk =>
      if ¬ edParse pk then .error "failed to create verifying key from pubkey"
      else if sig.length ≠ 64 then .error "invalid signature length"
      else if ¬ edVerify pk msg sig then .error "signature verification failed"
      else verifyLoop edParse edVerify msg keys rest (i + 1)

/-- verify_transaction (crypto/mod.rs, lines 45-78): note the message bytes
are the borsh serialization of the message, not serialize_for_signing. -/
def verify_transaction (edParse : List Nat → Bool)
    (edVerify : List Nat → List Nat → List Nat → Bool) (tx : Transaction) :
    Except String Unit :=
  verifyLoop edParse edVerify (borshMessageBytes tx.message)
    tx.message.account_keys tx.signatures 0

/-- C2: evaluation of the code at the failing input.  For a minimal
one-signer transaction whose key is the public key of the signing secret
key, Transaction::sign succeeds; but the canonical message-for-signing
bytes differ from the borsh bytes verify_transaction checks against
(compact-u16 versus u32 length prefixes), so for any Ed25519 primitives in
which a signature over one message does not verify over a different one,
verify_transaction rejects the freshly signed transaction instead of
succeeding as the claim states. -/
theorem verify_after_sign_fails
    (edSign : List Nat → List Nat → List Nat) (edPub : List Nat → List Nat)
    (edParse : List Nat → Bool)
    (edVerify : List Nat → List Nat → List Nat → Bool) (sk : List Nat)
    (hsk : sk.length = 32) (hpk : (edPub sk).length = 32)
    (hparse : edParse (edPub sk) = true)
    (hsiglen : ∀ m, (edSign sk m).length = 64)
    (hsound : ∀ m m', m ≠ m' →
      edVerify (edPub sk) m' (edSign sk m) = false) :
    (∀ M, (Message.mk ⟨1, 0, 0⟩ [edPub sk] (List.replicate 32 0)
        []).serialize_for_signing = .ok M →
      M ≠ borshMessageBytes
        (Message.mk ⟨1, 0, 0⟩ [edPub sk] (List.replicate 32 0) [])) ∧
    (Transaction.sign edSign
      ⟨[], Message.mk ⟨1, 0, 0⟩ [edPub sk] (List.replicate 32 0) []⟩
      [sk]).1 = .ok () ∧
    verify_transaction edParse edVerify
      (Transaction.sign edSign
        ⟨[], Message.mk ⟨1, 0, 0⟩ [edPub sk] (List.replicate 32 0) []⟩
        [sk]).2 = .error "signature verification failed" := by
  have henc1 : encodeLoop 1 = [1] := encodeLoop_small (by omega)
  have henc0 : encodeLoop 0 = [0] := encodeLoop_small (by omega)
  have hser : (Message.mk ⟨1, 0, 0⟩ [edPub sk] (List.replicate 32 0)
      []).serialize_for_signing =
      .ok (([1, 0, 0] ++ [1] ++ [edPub sk].flatten ++ List.replicate 32 0 ++
        [0] ++ []) : List Nat) := by
    rw [Message.serialize_for_signing]
    simp only [List.length_cons, List.length_nil]
    rw [encode_length_to_compact_u16_bytes, if_neg (by simp),
      encode_length_to_compact_u16_bytes, if_neg (by simp)]
    rw [henc1, henc0]
    rfl
  have hlenM : (([1, 0, 0] ++ [1] ++ [edPub sk].flatten ++
      List.replicate 32 0 ++ [0] ++ []) : List Nat).length = 69 := by
    simp [hpk]
  have hlenB : (borshMessageBytes (Message.mk ⟨1, 0, 0⟩ [edPub sk]
      (List.replicate 32 0) [])).length = 75 := by
    simp [borshMessageBytes, u32le, hpk]
  have hne : (([1, 0, 0] ++ [1] ++ [edPub sk].flatten ++
      List.replicate 32 0 ++ [0] ++ []) : List Nat) ≠
      borshMessageBytes (Message.mk ⟨1, 0, 0⟩ [edPub sk]
        (List.replicate 32 0) []) := by
    intro hc
    rw [hc] at hlenM
    rw [hlenM] at hlenB
    exact absurd hlenB (by norm_num)
  refine ⟨?_, ?_, ?_⟩
  · intro M hM
    rw [hser] at hM
    cases hM
    exact hne
  · rw [Transaction.sign, hser]
    dsimp only
    rw [if_neg (by simp)]
    rw [List.take, List.take, signLoop, sign_message, if_neg (by rw [hsk]; simp)]
    dsimp only
    rw [signLoop]
  · rw [Transaction.sign, hser]
    dsimp only
    rw [if_neg (by simp)]
    rw [List.take, List.take, signLoop, sign_message, if_neg (by rw [hsk]; simp)]
    dsimp only
    rw [signLoop]
    rw [verify_transaction]
    dsimp only [List.nil_append]
    rw [verifyLoop]
    simp only [List.getElem?_cons_zero, Option.some.injEq]
    rw [if_neg (by rw [hparse]; simp), if_neg (by rw [hsiglen]; simp),
      if_pos (by rw [hsound _ _ hne]; simp)]

/-- Witness for verify_after_sign_fails with degenerate Ed25519 stand-ins
satisfying the stated contract. -/
theorem verify_after_sign_fails_witness :
    ((List.replicate 32 7 : List Nat).length = 32 ∧
      ((fun (x : List Nat) => x) (List.replicate 32 7)).length = 32) ∧
    ((∀ M, (Message.mk ⟨1, 0, 0⟩ [(fun (x : List Nat) => x)
        (List.replicate 32 7)] (List.replicate 32 0)
        []).serialize_for_signing = .ok M →
      M ≠ borshMessageBytes
        (Message.mk ⟨1, 0, 0⟩ [(fun (x : List Nat) => x)
          (List.replicate 32 7)] (List.replicate 32 0) [])) ∧
    (Transaction.sign (fun _ _ => List.replicate 64 0)
      ⟨[], Message.mk ⟨1, 0, 0⟩ [(fun (x : List Nat) => x)
        (List.replicate 32 7)] (List.replicate 32 0) []⟩
      [List.replicate 32 7]).1 = .ok () ∧
    verify_transaction (fun _ => true) (fun _ _ _ => false)
      (Transaction.sign (fun _ _ => List.replicate 64 0)
        ⟨[], Message.mk ⟨1, 0, 0⟩ [(fun (x : List Nat) => x)
          (List.replicate 32 7)] (List.replicate 32 0) []⟩
        [List.replicate 32 7]).2 = .error "signature verification failed") :=
  ⟨⟨by decide, by decide⟩,
    verify_after_sign_fails (fun _ _ => List.replicate 64 0)
      (fun (x : List Nat) => x) (fun _ => true) (fun _ _ _ => false)
      (List.replicate 32 7) (by decide) (by decide) rfl (fun _ => rfl)
      (fun _ _ _ => rfl)⟩

/-- C10: when Transaction::sign is called with fewer private keys than
num_required_signatures it returns an error, but the signatures vector has
already been cleared before the key-count check: after the failed call the
transaction holds zero signatures regardless of its previous contents. -/
theorem sign_insufficient_keys_clears_signatures
    (edSign : List Nat → List Nat → List Nat) (tx : Transaction)
    (private_keys : List (List Nat)) (M : List Nat)
    (hser : tx.message.serialize_for_signing = .ok M)
    (hlt : private_keys.length < tx.message.header.num_required_signatures) :
    (Transaction.sign edSign tx private_keys).1 =
      .error "insufficient private keys" ∧
    ((Transaction.sign edSign tx private_keys).2).signatures = [] := by
  rw [Transaction.sign, hser]
  simp only
  rw [if_pos (by simpa using hlt)]
  exact ⟨rfl, rfl⟩

/-- Witness for sign_insufficient_keys_clears_signatures: a transaction
that already holds a signature loses it when sign is called with no keys. -/
theorem sign_insufficient_keys_clears_signatures_witness :
    (Message.mk ⟨2, 0, 0⟩ [List.replicate 32 1, List.replicate 32 2]
      (List.replicate 32 0) []).serialize_for_signing =
      .ok (([2, 0, 0] ++ [2] ++
        [List.replicate 32 1, List.replicate 32 2].flatten ++
        List.replicate 32 0 ++ [0] ++ []) : List Nat) ∧
    ([] : List (List Nat)).length < 2 ∧
    ((Transaction.sign (fun _ _ => List.replicate 64 0)
      ⟨[List.replicate 64 9], Message.mk ⟨2, 0, 0⟩
        [List.replicate 32 1, List.replicate 32 2]
        (List.replicate 32 0) []⟩ []).1 =
      .error "insufficient private keys" ∧
    ((Transaction.sign (fun _ _ => List.replicate 64 0)
      ⟨[List.replicate 64 9], Message.mk ⟨2, 0, 0⟩
        [List.replicate 32 1, List.replicate 32 2]
        (List.replicate 32 0) []⟩ []).2).signatures = []) := by
  have henc2 : encodeLoop 2 = [2] := encodeLoop_small (by omega)
  have henc0 : encodeLoop 0 = [0] := encodeLoop_small (by omega)
  have hser : (Message.mk ⟨2, 0, 0⟩ [List.replicate 32 1, List.replicate 32 2]
      (List.replicate 32 0) []).serialize_for_signing =
      .ok (([2, 0, 0] ++ [2] ++
        [List.replicate 32 1, List.replicate 32 2].flatten ++
        List.replicate 32 0 ++ [0] ++ []) : List Nat) := by
    rw [Message.serialize_for_signing]
    simp only [List.length_cons, List.length_nil]
    rw [encode_length_to_compact_u16_bytes, if_neg (by simp),
      encode_length_to_compact_u16_bytes, if_neg (by simp)]
    rw [henc2, henc0]
    rfl
  exact ⟨hser, by decide,
    sign_insufficient_keys_clears_signatures _ _ _ _ hser (by decide)⟩
